import Mathlib

/-!
Verification development for the TreeRAG query-time retrieval engine
(`src/tree_rag`).  The Python source is shallowly embedded: pure functions
become Lean functions over `List`/`String`/`ℚ`, Python floats are modelled as
rationals, Python dicts as ordered association lists with last-writer-wins
insertion, and the external network boundary (LLM chat, embeddings, rerank
scoring, the optional `rank_bm25`/`jieba` libraries) is modelled by function
or outcome parameters, exactly at the call sites where the source hands
control to those collaborators.
-/

/-! ## Python string primitives -/

/-- Whitespace recognised by Python `str.strip` (ASCII subset: space, tab,
newline, carriage return, vertical tab, form feed). -/
def pyIsSpace (c : Char) : Bool :=
  c = ' ' || c = '\t' || c = '\n' || c = '\r' || c = Char.ofNat 11 || c = Char.ofNat 12

/-- Python `str.strip` on a character list: drop whitespace from both ends. -/
def pyStrip (cs : List Char) : List Char :=
  ((cs.dropWhile pyIsSpace).reverse.dropWhile pyIsSpace).reverse

/-- Python `str.strip` on a `String`. -/
def pyStripS (s : String) : String :=
  ⟨pyStrip s.data⟩

/-- Python `str.lower`, modelled for the ASCII range (`Char.toLower`); the
claims in scope only exercise ASCII and CJK text, and CJK is unaffected. -/
def pyLower (s : String) : String :=
  ⟨s.data.map Char.toLower⟩

/-- Python substring containment `needle in hay`. -/
def isSubstring (needle hay : String) : Bool :=
  decide (needle.data <:+: hay.data)

/-- Lexicographic comparison of character lists by code point, the order
Python uses to compare strings.  Bool-valued so that it evaluates in the
kernel (Lean's builtin `String.ltb` does not reduce). -/
def charListLeb : List Char → List Char → Bool
  | [], _ => true
  | _ :: _, [] => false
  | c :: cs, d :: ds =>
    if c < d then true
    else if d < c then false
    else charListLeb cs ds

theorem charListLeb_total : ∀ xs ys : List Char, charListLeb xs ys = true ∨ charListLeb ys xs = true
  | [], _ => Or.inl rfl
  | _ :: _, [] => Or.inr rfl
  | c :: cs, d :: ds => by
    rcases lt_trichotomy c d with h | h | h
    · exact Or.inl (by simp [charListLeb, h])
    · subst h
      rcases charListLeb_total cs ds with ih | ih
      · exact Or.inl (by simp [charListLeb, ih])
      · exact Or.inr (by simp [charListLeb, ih])
    · exact Or.inr (by simp [charListLeb, h])

theorem charListLeb_trans : ∀ xs ys zs : List Char,
    charListLeb xs ys = true → charListLeb ys zs = true → charListLeb xs zs = true
  | [], _, _, _, _ => rfl
  | _ :: _, [], _, h, _ => by simp [charListLeb] at h
  | _ :: _, _ :: _, [], _, h => by simp [charListLeb] at h
  | c :: cs, d :: ds, e :: es, h1, h2 => by
    by_cases hcd : c < d <;> by_cases hde : d < e
    · have : c < e := lt_trans hcd hde
      simp [charListLeb, this]
    · have hed : ¬ e < d := by
        intro hed
        simp [charListLeb, hde, hed, asymm hed] at h2
      have hde' : d = e := le_antisymm (le_of_not_lt hed) (le_of_not_lt hde)
      have : c < e := hde' ▸ hcd
      simp [charListLeb, this]
    · have hdc : ¬ d < c := by
        intro hdc
        simp [charListLeb, hcd, hdc, asymm hdc] at h1
      have hcd' : c = d := le_antisymm (le_of_not_lt hdc) (le_of_not_lt hcd)
      have : c < e := hcd' ▸ hde
      simp [charListLeb, this]
    · have hdc : ¬ d < c := by
        intro hdc
        simp [charListLeb, hcd, hdc, asymm hdc] at h1
      have hed : ¬ e < d := by
        intro hed
        simp [charListLeb, hde, hed, asymm hed] at h2
      have hcd' : c = d := le_antisymm (le_of_not_lt hdc) (le_of_not_lt hcd)
      have hde' : d = e := le_antisymm (le_of_not_lt hed) (le_of_not_lt hde)
      have hce : ¬ c < e := by rw [hcd', hde']; exact lt_irrefl e
      have hec : ¬ e < c := by rw [hcd', hde']; exact lt_irrefl e
      simp [charListLeb, hcd, hdc] at h1
      simp [charListLeb, hde, hed] at h2
      simp [charListLeb, hce, hec]
      exact charListLeb_trans cs ds es h1 h2

theorem charListLeb_antisymm : ∀ xs ys : List Char,
    charListLeb xs ys = true → charListLeb ys xs = true → xs = ys
  | [], [], _, _ => rfl
  | [], _ :: _, _, h => by simp [charListLeb] at h
  | _ :: _, [], h, _ => by simp [charListLeb] at h
  | c :: cs, d :: ds, h1, h2 => by
    by_cases hcd : c < d
    · have hdc : ¬ d < c := asymm hcd
      simp [charListLeb, hdc, hcd] at h2
    · by_cases hdc : d < c
      · simp [charListLeb, hcd, hdc] at h1
      · have hc : c = d := le_antisymm (le_of_not_lt hdc) (le_of_not_lt hcd)
        simp [charListLeb, hcd, hdc] at h1 h2
        rw [hc, charListLeb_antisymm cs ds h1 h2]

/-! ## Numeric primitives -/

/-- Floor square root on naturals, by linear search (kernel-reducible, unlike
the well-founded `Nat.sqrt`). -/
def isqrt (n : ℕ) : ℕ :=
  ((List.range (n + 1)).filter fun m => m * m ≤ n).foldl max 0

/-- Model of `math.sqrt` on the rational embedding of floats.  Only the zero
set of the square root influences the embedded control flow (the
`norm == 0.0` guards), and this model matches float `sqrt` there: it maps `0`
to `0` and every positive rational to a positive rational.  Values elsewhere
are a floor approximation; no claim in scope depends on them. -/
def ratSqrt (q : ℚ) : ℚ :=
  if q ≤ 0 then 0 else (isqrt q.num.toNat : ℚ) / (isqrt q.den : ℚ)

/-- Python `round(x)`: round half to even (banker's rounding). -/
def roundHalfEven (x : ℚ) : ℤ :=
  let f := ⌊x⌋
  let r := x - f
  if r < 1 / 2 then f
  else if 1 / 2 < r then f + 1
  else if Even f then f else f + 1

/-- Python `round(x, 4)`. -/
def round4 (x : ℚ) : ℚ :=
  (roundHalfEven (x * 10000) : ℚ) / 10000

theorem round4_zero : round4 0 = 0 := by
  norm_num [round4, roundHalfEven]

/-- Python dict assignment `d[k] = v` on an insertion-ordered association
list: overwrite in place when the key exists, append otherwise. -/
def assocSet {α : Type} (l : List (String × α)) (k : String) (v : α) : List (String × α) :=
  if l.any fun p => p.1 = k then
    l.map fun p => if p.1 = k then (k, v) else p
  else l ++ [(k, v)]

/-! ## Tokenizer (`tree_rag/utils/tokenizer.py`) -/

/-- Character class of `EN_TOKEN_RE = [A-Za-z0-9_]+`. -/
def isTokenChar (c : Char) : Bool :=
  c.isAlpha || c.isDigit || c = '_'

/-- Character class of `CJK_CHAR_RE = [一-鿿]`. -/
def isCJK (c : Char) : Bool :=
  0x4e00 ≤ c.toNat && c.toNat ≤ 0x9fff

/-- Maximal runs of token characters: `EN_TOKEN_RE.findall`.  The first
argument is the pending run, reversed. -/
def tokenRunsAux : List Char → List Char → List String
  | acc, [] => if acc.isEmpty then [] else [⟨acc.reverse⟩]
  | acc, c :: rest =>
    if isTokenChar c then tokenRunsAux (c :: acc) rest
    else if acc.isEmpty then tokenRunsAux [] rest
    else ⟨acc.reverse⟩ :: tokenRunsAux [] rest

def tokenRuns (cs : List Char) : List String :=
  tokenRunsAux [] cs

/-- The per-character loop of `_tokenize_cjk_fallback`: CJK characters become
single-character tokens, the Latin spans between them go through
`EN_TOKEN_RE.findall` after lowering.  The accumulator is the pending
non-CJK word, reversed. -/
def cjkFallbackAux : List Char → List Char → List String
  | word, [] => tokenRuns ((word.reverse).map Char.toLower)
  | word, c :: rest =>
    if isCJK c then
      tokenRuns ((word.reverse).map Char.toLower) ++ ⟨[c]⟩ :: cjkFallbackAux [] rest
    else cjkFallbackAux (c :: word) rest

def STOPWORDS : List String :=
  ["the", "a", "an", "and", "or", "is", "are", "to", "of", "in", "on", "for", "with"]

/-- Embedding of `tokenize`.  The CJK branch models the `ImportError`
fallback `_tokenize_cjk_fallback`; the optional `jieba` segmenter is an
external collaborator outside this embedding, and every input exercised by
the claims is CJK-free. -/
def tokenize (text : String) : List String :=
  let normalized := pyLower (pyStripS text)
  if normalized.data.isEmpty then []
  else
    let tokens :=
      if normalized.data.any isCJK then cjkFallbackAux [] normalized.data
      else tokenRuns normalized.data
    tokens.filter fun token => token ∉ STOPWORDS

/-! ## Similarity utilities (`tree_rag/utils/similarity.py`) -/

/-- Python `sum(a * b for a, b in zip(vec_a, vec_b))`. -/
def dotList (va vb : List ℚ) : ℚ :=
  ((va.zip vb).map fun p => p.1 * p.2).foldl (· + ·) 0

/-- Python `sum(a * a for a in v)`. -/
def sumSq (v : List ℚ) : ℚ :=
  (v.map fun a => a * a).foldl (· + ·) 0

/-- Embedding of `cosine_similarity`. -/
def cosine_similarity (vec_a vec_b : List ℚ) : ℚ :=
  if vec_a.isEmpty || vec_b.isEmpty || vec_a.length ≠ vec_b.length then 0
  else
    let dot := dotList vec_a vec_b
    let norm_a := ratSqrt (sumSq vec_a)
    let norm_b := ratSqrt (sumSq vec_b)
    if norm_a = 0 ∨ norm_b = 0 then 0
    else dot / (norm_a * norm_b)

/-- Embedding of `min_max_normalize`. -/
def min_max_normalize (values : List ℚ) : List ℚ :=
  match values with
  | [] => []
  | v :: vs =>
    let minimum := vs.foldl min v
    let maximum := vs.foldl max v
    if maximum = minimum then values.map fun _ => 0
    else values.map fun value => (value - minimum) / (maximum - minimum)

theorem length_min_max_normalize (values : List ℚ) :
    (min_max_normalize values).length = values.length := by
  cases values with
  | nil => rfl
  | cons v vs =>
    simp only [min_max_normalize]
    split <;> simp

/-! ## Chunker (`tree_rag/indexing/chunker.py`) -/

/-- Python `content.split("\n\n")` (leftmost, non-overlapping).  The
accumulator holds the current piece, reversed. -/
def splitBlankAux : List Char → List Char → List (List Char)
  | acc, [] => [acc.reverse]
  | acc, [c] => [(c :: acc).reverse]
  | acc, c :: d :: rest =>
    if c = '\n' ∧ d = '\n' then acc.reverse :: splitBlankAux [] rest
    else splitBlankAux (c :: acc) (d :: rest)

def splitParagraphs (content : String) : List String :=
  (splitBlankAux [] content.data).map fun cs => ⟨cs⟩

/-- The `while start < len(paragraph)` window loop of `chunk_content`.  The
fuel argument only forces termination; `chunk_content` always calls it with
`step ≥ 1` and enough fuel for the loop to run to completion. -/
def windowLoop (cs : List Char) (csize step minc : ℕ) : ℕ → ℕ → List String
  | 0, _ => []
  | fuel + 1, start =>
    if start < cs.length then
      let piece := pyStrip ((cs.drop start).take csize)
      if minc ≤ piece.length then ⟨piece⟩ :: windowLoop cs csize step minc fuel (start + step)
      else windowLoop cs csize step minc fuel (start + step)
    else []

/-- Embedding of `chunk_content`. -/
def chunk_content (content : String) (chunk_size : ℤ := 200) (overlap : ℤ := 50)
    (min_chars : ℤ := 20) : List String :=
  if chunk_size ≤ 0 then []
  else
    let step : ℤ := if chunk_size - overlap ≤ 0 then 1 else chunk_size - overlap
    let paragraphs := (splitParagraphs content).map pyStripS
    paragraphs.flatMap fun paragraph =>
      if (paragraph.length : ℤ) < min_chars then []
      else if (paragraph.length : ℤ) ≤ chunk_size then [paragraph]
      else windowLoop paragraph.data chunk_size.toNat step.toNat min_chars.toNat
        (paragraph.data.length + 1) 0

/-! ## Data model (`tree_rag/types.py`) -/

structure Chunk where
  chunk_id : String
  text : String
  source_node_id : String
  heading_path : String
  embedding : List ℚ
deriving DecidableEq

structure RetrievedChunk where
  chunk : Chunk
  score : ℚ
  retrieval_detail : List (String × ℚ)
deriving DecidableEq

structure NodeLocateResult where
  node_id : String
  sub_query : String
deriving DecidableEq

structure RagConfig where
  openai_api_key : String
  openai_base_url : String
  llm_model : String
  embed_model : String
  rerank_model : String
  timeout_seconds : ℚ
  top_k : ℤ
  dense_weight : ℚ
  bm25_weight : ℚ
  rerank_diversify : Bool
  rerank_min_unique_nodes : ℤ

/-- An `IndexedNode`.  The opaque sparse-scoring handle `bm25_index` (a
`BM25Okapi` or `FallbackBM25` object in the source) is modelled by its only
used capability, the `get_scores` method: tokenized query in, score list
aligned with the node's chunks out. -/
structure IndexedNode where
  node_id : String
  heading_path : String
  chunks : List Chunk
  bm25_index : Option (List String → List ℚ)

mutual
/-- A node of the input document tree (`tree_data` dicts).  Fields the
source reads through `dict.get` with a default are `Option`-valued so the
present/absent distinction is preserved; `node_id` is total because the
source coerces it with `str` everywhere it is read.  The children sit in a
mutually defined list type so that the tree traversal below is structurally
recursive (and therefore evaluates in the kernel). -/
inductive TreeNode : Type where
  | mk :
    (node_id : String) →
    (heading : Option String) →
    (summary : Option String) →
    (content : Option String) →
    (heading_path : Option String) →
    (is_leaf : Option Bool) →
    (children : TreeNodeChildren) →
    TreeNode

inductive TreeNodeChildren : Type where
  | nil : TreeNodeChildren
  | cons : TreeNode → TreeNodeChildren → TreeNodeChildren
end

def TreeNodeChildren.toList : TreeNodeChildren → List TreeNode
  | .nil => []
  | .cons n rest => n :: rest.toList

def TreeNodeChildren.ofList : List TreeNode → TreeNodeChildren
  | [] => .nil
  | n :: rest => .cons n (ofList rest)

def TreeNode.node_id : TreeNode → String
  | .mk i _ _ _ _ _ _ => i

def TreeNode.heading : TreeNode → Option String
  | .mk _ h _ _ _ _ _ => h

def TreeNode.summary : TreeNode → Option String
  | .mk _ _ s _ _ _ _ => s

def TreeNode.content : TreeNode → Option String
  | .mk _ _ _ c _ _ _ => c

def TreeNode.heading_path : TreeNode → Option String
  | .mk _ _ _ _ p _ _ => p

def TreeNode.is_leaf : TreeNode → Option Bool
  | .mk _ _ _ _ _ l _ => l

def TreeNode.children : TreeNode → List TreeNode
  | .mk _ _ _ _ _ _ cs => cs.toList

/-- The `tree_data` payload: `{"doc_id": ..., "tree": ...}`. -/
structure TreeData where
  doc_id : Option String
  tree : TreeNode

structure RagIndex where
  doc_id : String
  tree_data : TreeData
  nodes : List (String × IndexedNode)
  all_chunks : List Chunk

/-! ## Tree traversal (`_iter_nodes` / `_leaf_nodes`, identical in
`node_locator.py` and `index_store.py`) -/

mutual
/-- Embedding of `_iter_nodes`: the explicit stack with `reversed(children)`
performs a preorder depth-first traversal, here written as the equivalent
structural recursion (node first, then the children in order). -/
def iterNodes : TreeNode → List TreeNode
  | .mk i h s c p l cs => .mk i h s c p l cs :: iterChildren cs

def iterChildren : TreeNodeChildren → List TreeNode
  | .nil => []
  | .cons n rest => iterNodes n ++ iterChildren rest
end

/-- Python `is_leaf = node.get("is_leaf"); if is_leaf is None: is_leaf = not
bool(children)`. -/
def TreeNode.effectiveLeaf (n : TreeNode) : Bool :=
  match n.is_leaf with
  | some b => b
  | none => n.children.isEmpty

/-- Embedding of `_leaf_nodes` / `_collect_leaf_nodes`. -/
def leafNodes (tree_data : TreeData) : List TreeNode :=
  (iterNodes tree_data.tree).filter fun node =>
    node.effectiveLeaf && node.node_id ≠ "root"

/-! ## Hybrid retriever (`tree_rag/retrieval/hybrid_retriever.py`) -/

/-- Descending order on the fused-score component used by
`sorted(..., key=lambda item: item[1], reverse=True)`.  Ties keep input
order under a stable sort, exactly like Python. -/
def fusedDesc (a b : Chunk × ℚ × ℚ × ℚ) : Prop :=
  b.2.1 ≤ a.2.1

instance : DecidableRel fusedDesc := fun a b =>
  inferInstanceAs (Decidable (b.2.1 ≤ a.2.1))

instance : IsTotal (Chunk × ℚ × ℚ × ℚ) fusedDesc :=
  ⟨fun a b => le_total b.2.1 a.2.1⟩

instance : IsTrans (Chunk × ℚ × ℚ × ℚ) fusedDesc :=
  ⟨fun _ _ _ h h' => le_trans h' h⟩

/-- Embedding of `hybrid_retrieve`.  `embed_query_fn` is the function
argument of the source; the node's `bm25_index.get_scores` is the stored
handle (see `IndexedNode`). -/
def hybrid_retrieve (node : IndexedNode) (query : String) (top_k : ℤ)
    (dense_weight bm25_weight : ℚ) (embed_query_fn : String → List ℚ) :
    List RetrievedChunk :=
  let chunks := node.chunks
  if chunks.isEmpty then []
  else
    let query_embedding := embed_query_fn query
    let dense_scores := chunks.map fun chunk =>
      cosine_similarity query_embedding chunk.embedding
    let tokenized_query := tokenize query
    let bm25_raw :=
      match node.bm25_index with
      | some get_scores => get_scores tokenized_query
      | none => chunks.map fun _ => 0
    let bm25_scores :=
      (bm25_raw ++ List.replicate (chunks.length - bm25_raw.length) 0).take chunks.length
    let dense_norm := min_max_normalize dense_scores
    let bm25_norm := min_max_normalize bm25_scores
    let fused_scores := List.zipWith
      (fun dense bm25 => dense_weight * dense + bm25_weight * bm25) dense_norm bm25_norm
    let ranked := List.insertionSort fusedDesc
      (chunks.zip (fused_scores.zip (dense_scores.zip bm25_scores)))
    let resolved_top_k := (max 1 top_k).toNat
    (ranked.take resolved_top_k).map fun item =>
      { chunk := item.1
        score := item.2.1
        retrieval_detail :=
          [("dense_score", round4 item.2.2.1),
           ("bm25_score", round4 item.2.2.2),
           ("fused_score", round4 item.2.1)] }

/-! ## Diversity-aware reranker (`tree_rag/retrieval/reranker.py`) -/

/-- Embedding of `_fused_score`: `retrieval_detail.get("fused_score", 0.0)`. -/
def fusedScoreOf (item : RetrievedChunk) : ℚ :=
  (item.retrieval_detail.lookup "fused_score").getD 0

/-- The sort key comparison of `_sorted_chunks`:
`(-score, -fused_score, chunk_id)` ascending, i.e. score descending, then
fused score descending, then chunk id ascending (Python string order =
code-point lexicographic). -/
def rankLeb (a b : RetrievedChunk) : Bool :=
  if b.score < a.score then true
  else if a.score < b.score then false
  else if fusedScoreOf b < fusedScoreOf a then true
  else if fusedScoreOf a < fusedScoreOf b then false
  else charListLeb a.chunk.chunk_id.data b.chunk.chunk_id.data

def rankRel (a b : RetrievedChunk) : Prop :=
  rankLeb a b = true

instance : DecidableRel rankRel := fun a b =>
  inferInstanceAs (Decidable (rankLeb a b = true))

theorem rankLeb_total (a b : RetrievedChunk) : rankLeb a b = true ∨ rankLeb b a = true := by
  unfold rankLeb
  rcases lt_trichotomy a.score b.score with h | h | h
  · right; simp [h]
  · rcases lt_trichotomy (fusedScoreOf a) (fusedScoreOf b) with h' | h' | h'
    · right; simp [h, h', lt_irrefl]
    · rcases charListLeb_total a.chunk.chunk_id.data b.chunk.chunk_id.data with h'' | h''
      · left; simp [h, h', lt_irrefl, h'']
      · right; simp [h, h', lt_irrefl, h'']
    · left; simp [h, h', lt_irrefl]
  · left; simp [h]

theorem rankLeb_trans {a b c : RetrievedChunk}
    (h1 : rankLeb a b = true) (h2 : rankLeb b c = true) : rankLeb a c = true := by
  unfold rankLeb at h1 h2 ⊢
  rcases lt_trichotomy a.score b.score with hs | hs | hs
  · simp [hs, asymm hs, lt_irrefl] at h1
  · rcases lt_trichotomy b.score c.score with ht | ht | ht
    · simp [ht, asymm ht, lt_irrefl] at h2
    · have hac : a.score = c.score := hs.trans ht
      simp only [hs, ht, lt_irrefl, if_false] at h1 h2
      simp only [hac, lt_irrefl, if_false]
      rcases lt_trichotomy (fusedScoreOf a) (fusedScoreOf b) with hf | hf | hf
      · simp [hf, asymm hf, lt_irrefl] at h1
      · rcases lt_trichotomy (fusedScoreOf b) (fusedScoreOf c) with hg | hg | hg
        · simp [hg, asymm hg, lt_irrefl] at h2
        · have hfc : fusedScoreOf a = fusedScoreOf c := hf.trans hg
          simp only [hf, hg, lt_irrefl, if_false] at h1 h2
          simp only [hfc, lt_irrefl, if_false]
          exact charListLeb_trans _ _ _ h1 h2
        · have : fusedScoreOf c < fusedScoreOf a := hf ▸ hg
          simp [this, asymm this]
      · have hcb : fusedScoreOf b < fusedScoreOf a := hf
        simp only [hcb, if_true] at h1
        rcases lt_trichotomy (fusedScoreOf b) (fusedScoreOf c) with hg | hg | hg
        · simp [hg, asymm hg, lt_irrefl] at h2
        · have : fusedScoreOf c < fusedScoreOf a := hg ▸ hcb
          simp [this]
        · have : fusedScoreOf c < fusedScoreOf a := lt_trans hg hcb
          simp [this]
    · have : c.score < a.score := hs ▸ ht
      simp [this]
  · have hba : b.score < a.score := hs
    rcases lt_trichotomy b.score c.score with ht | ht | ht
    · simp [ht, asymm ht, lt_irrefl] at h2
    · have : c.score < a.score := ht ▸ hba
      simp [this]
    · have : c.score < a.score := lt_trans ht hba
      simp [this]

instance : IsTotal RetrievedChunk rankRel :=
  ⟨fun a b => rankLeb_total a b⟩

instance : IsTrans RetrievedChunk rankRel :=
  ⟨fun _ _ _ h h' => rankLeb_trans h h'⟩

/-- If two items compare equal under `rankLeb` in both directions, their
whole sort key agrees (score, fused score, and chunk id). -/
theorem rankLeb_antisymm_key {a b : RetrievedChunk}
    (h1 : rankLeb a b = true) (h2 : rankLeb b a = true) :
    a.score = b.score ∧ fusedScoreOf a = fusedScoreOf b ∧
      a.chunk.chunk_id = b.chunk.chunk_id := by
  unfold rankLeb at h1 h2
  rcases lt_trichotomy a.score b.score with hs | hs | hs
  · simp [hs, asymm hs, lt_irrefl] at h1 h2
  · simp only [hs, lt_irrefl, if_false] at h1 h2
    rcases lt_trichotomy (fusedScoreOf a) (fusedScoreOf b) with hf | hf | hf
    · simp [hf, asymm hf, lt_irrefl] at h1 h2
    · simp only [hf, lt_irrefl, if_false] at h1 h2
      refine ⟨hs, hf, ?_⟩
      have hd := charListLeb_antisymm _ _ h1 h2
      exact String.ext hd
    · simp [hf, asymm hf, lt_irrefl] at h1 h2
  · simp [hs, asymm hs, lt_irrefl] at h1 h2

/-- Embedding of `_sorted_chunks`.  `List.insertionSort` is a stable sort,
so it agrees with Python's stable `sorted`. -/
def sorted_chunks (chunks : List RetrievedChunk) : List RetrievedChunk :=
  List.insertionSort rankRel chunks

/-- The rank order lifted to position-tagged items, comparing the items
only.  In the source the selection lists hold distinct Python objects;
tagging each ranked entry with its position models object identity
(`id(item)`) for lists of values. -/
def tagRankRel (a b : ℕ × RetrievedChunk) : Prop :=
  rankRel a.2 b.2

instance : DecidableRel tagRankRel := fun a b =>
  inferInstanceAs (Decidable (rankLeb a.2 b.2 = true))

instance : IsTotal (ℕ × RetrievedChunk) tagRankRel :=
  ⟨fun a b => rankLeb_total a.2 b.2⟩

instance : IsTrans (ℕ × RetrievedChunk) tagRankRel :=
  ⟨fun _ _ _ h h' => rankLeb_trans h h'⟩

/-- Outcome of one call to the external rerank backend
(`client.rerank(...)`): either a score list or a raised exception. -/
def RerankClient : Type :=
  String → List String → Except Unit (List ℚ)

/-- Embedding of `_score_candidates`.  On success every candidate's score is
overwritten and `rerank_score` recorded; on a raised exception or a
length-mismatched response the input is returned untouched. -/
def score_candidates (query : String) (retrieved_chunks : List RetrievedChunk)
    (client : Option RerankClient) (mock : Bool) : List RetrievedChunk :=
  if mock then retrieved_chunks
  else
    match client with
    | none => retrieved_chunks
    | some rerank =>
      match rerank query (retrieved_chunks.map fun item => item.chunk.text) with
      | .error _ => retrieved_chunks
      | .ok scores =>
        if scores.length ≠ retrieved_chunks.length then retrieved_chunks
        else
          (retrieved_chunks.zip scores).map fun p =>
            { p.1 with
              score := p.2
              retrieval_detail := assocSet p.1.retrieval_detail "rerank_score" (round4 p.2) }

/-- The greedy seeding loop of `_select_with_node_diversity`: walk the
ranked list, select the first candidate of each not-yet-seeded node, and
stop as soon as the seeded-node count reaches the target or the selection
reaches `k`.  Returns the selection and the seeded-node list. -/
def seedGo (target k : ℕ) :
    List (ℕ × RetrievedChunk) → List (ℕ × RetrievedChunk) → List String →
    List (ℕ × RetrievedChunk) × List String
  | [], selected, seeded => (selected, seeded)
  | item :: rest, selected, seeded =>
    if item.2.chunk.source_node_id ∈ seeded then seedGo target k rest selected seeded
    else
      let selected' := selected ++ [item]
      let seeded' := seeded ++ [item.2.chunk.source_node_id]
      if target ≤ seeded'.length ∨ k ≤ selected'.length then (selected', seeded')
      else seedGo target k rest selected' seeded'

/-- The fill loop of `_select_with_node_diversity`: walk the ranked list
from the top again, appending every not-yet-selected item until the
selection reaches `k`. -/
def fillGo (k : ℕ) :
    List (ℕ × RetrievedChunk) → List (ℕ × RetrievedChunk) → List (ℕ × RetrievedChunk)
  | [], selected => selected
  | item :: rest, selected =>
    if k ≤ selected.length then selected
    else if item.1 ∈ selected.map Prod.fst then fillGo k rest selected
    else fillGo k rest (selected ++ [item])

/-- The coverage target of `_select_with_node_diversity` step 3. -/
def targetUniqueNodes (config : RagConfig) (available_unique_nodes k : ℕ) : ℕ :=
  if config.rerank_diversify then
    if 0 < config.rerank_min_unique_nodes then
      min available_unique_nodes (min k config.rerank_min_unique_nodes.toNat)
    else
      min available_unique_nodes (min k ((k + 1) / 2))
  else 0

/-- The body of `_select_with_node_diversity` from the point where the
ranked list exists.  `(k + 1) / 2` is `math.ceil(k / 2)` on naturals. -/
def selectFromRanked (ranked : List RetrievedChunk) (config : RagConfig)
    (resolved_top_k : ℕ) : List RetrievedChunk :=
  let k := min resolved_top_k ranked.length
  let available_unique_nodes := ((ranked.map fun item => item.chunk.source_node_id).dedup).length
  let target_unique_nodes := targetUniqueNodes config available_unique_nodes k
  let tagged := ranked.enum
  let seeded :=
    if config.rerank_diversify ∧ 0 < target_unique_nodes then
      (seedGo target_unique_nodes k tagged [] []).1
    else []
  let filled := fillGo k tagged seeded
  (List.insertionSort tagRankRel filled).map Prod.snd

/-- Embedding of `_select_with_node_diversity`. -/
def select_with_node_diversity (scored_chunks : List RetrievedChunk) (config : RagConfig)
    (resolved_top_k : ℕ) : List RetrievedChunk :=
  if scored_chunks.isEmpty then []
  else selectFromRanked (sorted_chunks scored_chunks) config resolved_top_k

/-- Python `max(1, top_k or config.top_k)` (`or` treats both `None` and `0`
as missing). -/
def resolvedTopK (config : RagConfig) (top_k : Option ℤ) : ℕ :=
  (max 1 (match top_k with
    | some t => if t = 0 then config.top_k else t
    | none => config.top_k)).toNat

/-- Embedding of `rerank_chunks`. -/
def rerank_chunks (query : String) (retrieved_chunks : List RetrievedChunk)
    (config : RagConfig) (client : Option RerankClient) (mock : Bool)
    (top_k : Option ℤ := none) : List RetrievedChunk :=
  if retrieved_chunks.isEmpty then []
  else
    let resolved_top_k := resolvedTopK config top_k
    let scored_chunks := score_candidates query retrieved_chunks client mock
    select_with_node_diversity scored_chunks config resolved_top_k

/-! ## Node locator (`tree_rag/retrieval/node_locator.py`) -/

/-- One entry of the `results` list inside the model's JSON payload: either
not a dict (skipped by the `isinstance` guard) or a dict whose `node_id` and
`sub_query` keys may each be absent. -/
inductive RawLocEntry : Type where
  | notDict : RawLocEntry
  | entry : (node_id : Option String) → (sub_query : Option String) → RawLocEntry

/-- A successfully parsed JSON payload from the model-assisted path:
`{"thinking": ..., "results": [...]}` with both keys optional. -/
structure LocPayload where
  thinking : Option String
  results : List RawLocEntry

/-- Descending order on the keyword score component used by
`sorted(candidates, key=lambda item: item[0], reverse=True)`. -/
def scoreDesc (a b : ℚ × TreeNode) : Prop :=
  b.1 ≤ a.1

instance : DecidableRel scoreDesc := fun a b =>
  inferInstanceAs (Decidable (b.1 ≤ a.1))

instance : IsTotal (ℚ × TreeNode) scoreDesc :=
  ⟨fun a b => le_total b.1 a.1⟩

instance : IsTrans (ℚ × TreeNode) scoreDesc :=
  ⟨fun _ _ _ h h' => le_trans h' h⟩

/-- The candidate text of `_keyword_locate`:
`f"{node.get('heading', '')} {node.get('summary', '')}".strip()`. -/
def keywordText (node : TreeNode) : String :=
  pyStripS ((node.heading.getD "") ++ " " ++ (node.summary.getD ""))

/-- The per-node score of `_keyword_locate`: token-set overlap plus `0.25`
for every distinct query token that is a substring of the lowered text.
`query_tokens` is already deduplicated (Python builds a set). -/
def keywordScore (query_tokens : List String) (node : TreeNode) : ℚ :=
  let text := keywordText node
  let node_tokens := tokenize text
  let overlap := (query_tokens.filter fun token => token ∈ node_tokens).length
  let lowered := pyLower text
  let boost := ((query_tokens.filter fun token =>
    token ≠ "" ∧ isSubstring token lowered).length : ℚ) * (1 / 4)
  (overlap : ℚ) + boost

/-- Embedding of `_keyword_locate`. -/
def keyword_locate (query : String) (tree_data : TreeData) (top_k : ℤ) :
    List NodeLocateResult × String :=
  let query_tokens := (tokenize query).dedup
  let candidates := (leafNodes tree_data).map fun node => (keywordScore query_tokens node, node)
  let ranked := List.insertionSort scoreDesc candidates
  let selected := (ranked.take (max 1 top_k).toNat).filterMap fun item =>
    if item.2.node_id ≠ "" then some item.2 else none
  let selected' :=
    if selected.isEmpty then
      match candidates with
      | [] => selected
      | c :: _ => [c.2]
    else selected
  (selected'.map fun node => ⟨node.node_id, query⟩,
   "Keyword fallback based on heading and summary matching.")

/-- The validation loop of `locate_nodes` over the payload's `results`:
skip non-dicts, strip and check each `node_id` against the leaf ids, default
and strip each `sub_query` (empty becomes the original query), and stop once
`cap` entries are collected (`cap` is `resolved_top_k ≥ 1`). -/
def collectLocResults (query : String) (leaf_ids : List String) :
    ℕ → List RawLocEntry → List NodeLocateResult
  | _, [] => []
  | cap, raw :: rest =>
    match raw with
    | .notDict => collectLocResults query leaf_ids cap rest
    | .entry nid sq =>
      let node_id := pyStripS (nid.getD "")
      if node_id ∉ leaf_ids then collectLocResults query leaf_ids cap rest
      else
        let stripped := pyStripS (sq.getD query)
        let sub_query := if stripped = "" then query else stripped
        ⟨node_id, sub_query⟩ ::
          (if cap ≤ 1 then [] else collectLocResults query leaf_ids (cap - 1) rest)

/-- Python `max(1, min(top_k or config.top_k, 5))`. -/
def locatorResolvedTopK (config : RagConfig) (top_k : Option ℤ) : ℕ :=
  (max 1 (min (match top_k with
    | some t => if t = 0 then config.top_k else t
    | none => config.top_k) 5)).toNat

/-- Embedding of `locate_nodes`.  The `client` argument models the combined
outcome of the backend call *and* `_extract_json_payload` (both live inside
the same `try` block in the source): `none` is a missing client,
`some (.error ())` is a raised exception or a response that failed both the
strict JSON parse and the first-JSON-object-substring extraction, and
`some (.ok payload)` is a successfully parsed payload. -/
def locate_nodes (query : String) (tree_data : TreeData) (config : RagConfig)
    (client : Option (Except Unit LocPayload)) (mock : Bool)
    (top_k : Option ℤ := none) : List NodeLocateResult × String :=
  let resolved_top_k := locatorResolvedTopK config top_k
  match mock, client with
  | true, _ => keyword_locate query tree_data resolved_top_k
  | false, none => keyword_locate query tree_data resolved_top_k
  | false, some (.error _) => keyword_locate query tree_data resolved_top_k
  | false, some (.ok payload) =>
    let leaf_ids := (leafNodes tree_data).map fun node => node.node_id
    let results := collectLocResults query leaf_ids resolved_top_k payload.results
    if results.isEmpty then keyword_locate query tree_data resolved_top_k
    else
      let thinking :=
        if pyStripS (payload.thinking.getD "") = "" then "LLM returned candidate nodes."
        else pyStripS (payload.thinking.getD "")
      (results, thinking)

/-! ## Index store (`tree_rag/indexing/index_store.py`) -/

/-- Python `f"{idx:02d}"`: zero-pad to two digits. -/
def fmt2 (idx : ℕ) : String :=
  if idx < 10 then "0" ++ toString idx else toString idx

/-- Embedding of `build_index_from_tree`.  The two external collaborators
are passed as functions: `embed_texts` (the `Embedder` protocol — mock or
OpenAI-backed) and `bm25_build` (the `build_bm25_index` constructor, which
returns a `rank_bm25.BM25Okapi` or the local `FallbackBM25`; only its
`get_scores` capability is retained, see `IndexedNode`). -/
def build_index_from_tree (tree_data : TreeData)
    (embed_texts : List String → List (List ℚ))
    (bm25_build : List (List String) → (List String → List ℚ)) : RagIndex :=
  let leaves := leafNodes tree_data
  let perLeaf := leaves.map fun leaf =>
    let node_id := pyStripS leaf.node_id
    let heading_path := leaf.heading_path.getD (leaf.heading.getD node_id)
    let content := leaf.content.getD ""
    let chunk_texts := chunk_content content
    let chunks := ((chunk_texts.zip (embed_texts chunk_texts)).enum).map fun p =>
      { chunk_id := node_id ++ "_chunk_" ++ fmt2 p.1
        text := p.2.1
        source_node_id := node_id
        heading_path := heading_path
        embedding := p.2.2 : Chunk }
    let tokenized := if chunks.isEmpty then [[]] else chunks.map fun chunk => tokenize chunk.text
    (node_id, ({ node_id := node_id
                 heading_path := heading_path
                 chunks := chunks
                 bm25_index := some (bm25_build tokenized) } : IndexedNode))
  { doc_id := tree_data.doc_id.getD "unknown_doc"
    tree_data := tree_data
    nodes := perLeaf.foldl (fun acc p => assocSet acc p.1 p.2) []
    all_chunks := perLeaf.flatMap fun p => p.2.chunks }

/-- One line of `chunks.jsonl`. -/
structure SavedChunkRow where
  chunk_id : String
  text : String
  source_node_id : String
  heading_path : String

/-- The `metadata.json` payload. -/
structure SavedMetadata where
  doc_id : String
  node_count : ℕ
  chunk_count : ℕ
  node_chunk_ids : List (String × List String)
  node_heading_paths : List (String × String)
  tree_data : TreeData

/-- The four artifacts written per index directory (`metadata.json`,
`chunks.jsonl`, `embeddings.npy`, `bm25.pkl`).  JSON / npy / pickle
serialization is modelled as lossless structure passing. -/
structure SavedIndex where
  metadata : SavedMetadata
  chunk_rows : List SavedChunkRow
  embedding_matrix : List (List ℚ)
  bm25_map : List (String × Option (List String → List ℚ))

/-- Embedding of `save_index`.  The `np.empty((0, 0))` branch for an index
without chunks coincides with mapping over the empty chunk list: both give a
matrix with zero rows. -/
def save_index (index : RagIndex) : SavedIndex :=
  { metadata :=
      { doc_id := index.doc_id
        node_count := index.nodes.length
        chunk_count := index.all_chunks.length
        node_chunk_ids := index.nodes.map fun p => (p.1, p.2.chunks.map fun c => c.chunk_id)
        node_heading_paths := index.nodes.map fun p => (p.1, p.2.heading_path)
        tree_data := index.tree_data }
    chunk_rows := index.all_chunks.map fun chunk =>
      { chunk_id := chunk.chunk_id
        text := chunk.text
        source_node_id := chunk.source_node_id
        heading_path := chunk.heading_path }
    embedding_matrix := index.all_chunks.map fun chunk => chunk.embedding
    bm25_map := index.nodes.map fun p => (p.1, p.2.bm25_index) }

/-- Python dict comprehension `{c.chunk_id: c for c in chunks}` followed by
lookup: on duplicate keys the last entry wins. -/
def lookupLast {α : Type} (k : String) (l : List (String × α)) : Option α :=
  List.lookup k l.reverse

/-- Embedding of `load_index`. -/
def load_index (saved : SavedIndex) : RagIndex :=
  let chunks := saved.chunk_rows.enum.map fun p =>
    { chunk_id := p.2.chunk_id
      text := p.2.text
      source_node_id := p.2.source_node_id
      heading_path := p.2.heading_path
      embedding := saved.embedding_matrix.getD p.1 [] : Chunk }
  let chunk_assoc := chunks.map fun chunk => (chunk.chunk_id, chunk)
  let nodes := saved.metadata.node_chunk_ids.map fun p =>
    (p.1, ({ node_id := p.1
             heading_path := (saved.metadata.node_heading_paths.lookup p.1).getD p.1
             chunks := p.2.filterMap fun cid => lookupLast cid chunk_assoc
             bm25_index := (saved.bm25_map.lookup p.1).getD none } : IndexedNode))
  { doc_id := saved.metadata.doc_id
    tree_data := saved.metadata.tree_data
    nodes := nodes
    all_chunks := chunks }

/-! ## Claim C10: cosine similarity totality and dense-score degradation -/

theorem ratSqrt_zero : ratSqrt 0 = 0 := by
  simp [ratSqrt]

theorem cosine_similarity_zero_cases (vec_a vec_b : List ℚ)
    (h : vec_a = [] ∨ vec_b = [] ∨ vec_a.length ≠ vec_b.length ∨
      sumSq vec_a = 0 ∨ sumSq vec_b = 0) :
    cosine_similarity vec_a vec_b = 0 := by
  unfold cosine_similarity
  rcases h with h | h | h | h | h
  · simp [h]
  · simp [h]
  · simp [h]
  · by_cases hg : (vec_a.isEmpty || vec_b.isEmpty || decide (vec_a.length ≠ vec_b.length)) = true
    · rw [if_pos hg]
    · rw [if_neg hg, if_pos (Or.inl (by rw [h, ratSqrt_zero]))]
  · by_cases hg : (vec_a.isEmpty || vec_b.isEmpty || decide (vec_a.length ≠ vec_b.length)) = true
    · rw [if_pos hg]
    · rw [if_neg hg, if_pos (Or.inr (by rw [h, ratSqrt_zero]))]

/-- C10: `cosine_similarity` is total and never divides by zero — on an
empty vector, a length mismatch, or a zero-norm vector it returns `0`
instead of raising — and consequently `hybrid_retrieve` records a
`dense_score` of `0` for every returned chunk whenever the query embedding's
dimension differs from every chunk embedding's dimension. -/
theorem c10_cosine_total_and_dense_degradation :
    (∀ vec_a vec_b : List ℚ,
      vec_a = [] ∨ vec_b = [] ∨ vec_a.length ≠ vec_b.length ∨
        sumSq vec_a = 0 ∨ sumSq vec_b = 0 →
      cosine_similarity vec_a vec_b = 0) ∧
    (∀ (node : IndexedNode) (query : String) (top_k : ℤ) (dense_weight bm25_weight : ℚ)
      (embed_query_fn : String → List ℚ),
      (∀ chunk ∈ node.chunks, (embed_query_fn query).length ≠ chunk.embedding.length) →
      ∀ item ∈ hybrid_retrieve node query top_k dense_weight bm25_weight embed_query_fn,
        item.retrieval_detail.lookup "dense_score" = some 0) := by
  constructor
  · exact cosine_similarity_zero_cases
  · intro node query top_k dense_weight bm25_weight embed_query_fn hmismatch item hitem
    simp only [hybrid_retrieve] at hitem
    by_cases hempty : node.chunks.isEmpty = true
    · rw [if_pos hempty] at hitem
      simp at hitem
    · rw [if_neg hempty] at hitem
      simp only [List.mem_map] at hitem
      obtain ⟨tup, htup, hmk⟩ := hitem
      have htup' := List.mem_of_mem_take htup
      rw [List.mem_insertionSort] at htup'
      have hdense : tup.2.2.1 ∈ node.chunks.map fun chunk =>
          cosine_similarity (embed_query_fn query) chunk.embedding := by
        have h1 := (List.of_mem_zip htup').2
        have h2 := (List.of_mem_zip h1).2
        exact (List.of_mem_zip h2).1
      have hzero : tup.2.2.1 = 0 := by
        rw [List.mem_map] at hdense
        obtain ⟨chunk, hchunk, hco⟩ := hdense
        rw [← hco]
        exact cosine_similarity_zero_cases _ _ (Or.inr (Or.inr (Or.inl (hmismatch chunk hchunk))))
      rw [← hmk]
      simp [List.lookup, hzero, round4_zero]

/-- Witness for C10 at concrete inputs: a length mismatch in
`cosine_similarity`, and a one-chunk node whose embedding dimension differs
from the query embedding. -/
theorem c10_witness :
    cosine_similarity [1] [1, 2] = 0 ∧
    ((fun _ : String => [(1 : ℚ)]) "q").length ≠ ([(1 : ℚ), 2, 3]).length ∧
    (∀ item ∈ hybrid_retrieve
        { node_id := "n", heading_path := "n", bm25_index := none,
          chunks := [{ chunk_id := "c", text := "t", source_node_id := "n",
                       heading_path := "n", embedding := [1, 2, 3] }] }
        "q" 3 (7 / 10) (3 / 10) (fun _ => [1]),
      item.retrieval_detail.lookup "dense_score" = some 0) :=
  ⟨c10_cosine_total_and_dense_degradation.1 [1] [1, 2] (Or.inr (Or.inr (Or.inl (by decide)))),
   by decide,
   c10_cosine_total_and_dense_degradation.2 _ "q" 3 (7 / 10) (3 / 10) (fun _ => [1])
     (by intro chunk hc; simp at hc; rw [hc]; decide)⟩

/-! ## Claim C6: hybrid retrieval size bound and ordering -/

/-- C6 (amended): for every node, query and `top_k`, `hybrid_retrieve`
returns at most `max 1 top_k` results (the source keeps the top
`max(1, top_k)`, so `top_k ≤ 0` still yields one result on a non-empty
node), at most one result per chunk, sorted by descending fused score, and
the empty list on a chunk-less node. -/
theorem c6_hybrid_retrieve_bounds (node : IndexedNode) (query : String) (top_k : ℤ)
    (dense_weight bm25_weight : ℚ) (embed_query_fn : String → List ℚ) :
    (hybrid_retrieve node query top_k dense_weight bm25_weight embed_query_fn).length ≤
      (max 1 top_k).toNat ∧
    (hybrid_retrieve node query top_k dense_weight bm25_weight embed_query_fn).length ≤
      node.chunks.length ∧
    (hybrid_retrieve node query top_k dense_weight bm25_weight embed_query_fn).Sorted
      (fun a b => b.score ≤ a.score) ∧
    (node.chunks.isEmpty = true →
      hybrid_retrieve node query top_k dense_weight bm25_weight embed_query_fn = []) := by
  by_cases hempty : node.chunks.isEmpty = true
  · refine ⟨?_, ?_, ?_, fun _ => ?_⟩ <;>
      simp only [hybrid_retrieve, if_pos hempty] <;> simp
  · refine ⟨?_, ?_, ?_, fun h => absurd h hempty⟩
    · simp only [hybrid_retrieve, if_neg hempty, List.length_map, List.length_take]
      exact min_le_left _ _
    · simp only [hybrid_retrieve, if_neg hempty, List.length_map, List.length_take,
        List.length_insertionSort, List.length_zip]
      exact le_trans (min_le_right _ _) (min_le_left _ _)
    · simp only [hybrid_retrieve, if_neg hempty]
      exact List.Pairwise.map _ (fun a b hab => hab)
        ((List.sorted_insertionSort fusedDesc _).sublist (List.take_sublist _ _))

def c6Node : IndexedNode :=
  { node_id := "n"
    heading_path := "n"
    chunks := [{ chunk_id := "c", text := "t", source_node_id := "n",
                 heading_path := "n", embedding := [] }]
    bm25_index := none }

/-- Counterexample to C6 as stated: with `top_k = 0` and a one-chunk node,
`hybrid_retrieve` returns one result, not at most `top_k = 0` — the source
floors the slot count at `max(1, top_k)`. -/
theorem c6_counterexample :
    (hybrid_retrieve c6Node "q" 0 (7 / 10) (3 / 10) fun _ => []).length = 1 ∧
    ¬ ((hybrid_retrieve c6Node "q" 0 (7 / 10) (3 / 10) fun _ => []).length ≤ 0) := by
  decide

def c6EmptyNode : IndexedNode :=
  { node_id := "e", heading_path := "e", chunks := [], bm25_index := none }

/-- Witness for C6 (amended) at concrete inputs: the empty-node case and the
size bound. -/
theorem c6_witness :
    hybrid_retrieve c6EmptyNode "q" 3 (7 / 10) (3 / 10) (fun _ => []) = [] ∧
    (hybrid_retrieve c6Node "q" 3 (7 / 10) (3 / 10) (fun _ => [])).length ≤
      (max 1 (3 : ℤ)).toNat :=
  ⟨(c6_hybrid_retrieve_bounds c6EmptyNode "q" 3 (7 / 10) (3 / 10) (fun _ => [])).2.2.2 (by decide),
   (c6_hybrid_retrieve_bounds c6Node "q" 3 (7 / 10) (3 / 10) (fun _ => [])).1⟩

/-! ## Claim C8: sliding-window chunking overlap -/

/-- Python `s[:n]`. -/
def firstChars (n : ℕ) (s : String) : String :=
  ⟨s.data.take n⟩

/-- Python `s[-n:]` (for `n ≤ len(s)`; shorter strings are returned whole,
as in Python). -/
def lastChars (n : ℕ) (s : String) : String :=
  ⟨s.data.drop (s.data.length - n)⟩

theorem splitBlankAux_no_newline :
    ∀ (cs acc : List Char), (∀ c ∈ cs, c ≠ '\n') →
    splitBlankAux acc cs = [acc.reverse ++ cs]
  | [], acc, _ => by simp [splitBlankAux]
  | [c], acc, _ => by simp [splitBlankAux]
  | c :: d :: rest, acc, h => by
    have hc : c ≠ '\n' := h c (List.mem_cons_self _ _)
    have hrest : ∀ x ∈ d :: rest, x ≠ '\n' := fun x hx => h x (List.mem_cons_of_mem _ hx)
    rw [splitBlankAux, if_neg (fun hand => hc hand.1),
      splitBlankAux_no_newline (d :: rest) (c :: acc) hrest]
    simp

theorem dropWhile_eq_self_of_not {p : Char → Bool} :
    ∀ cs : List Char, (∀ c ∈ cs, p c = false) → cs.dropWhile p = cs
  | [], _ => rfl
  | c :: rest, h => by
    rw [List.dropWhile_cons, h c (List.mem_cons_self _ _)]
    simp

theorem pyStrip_of_no_space (cs : List Char) (h : ∀ c ∈ cs, pyIsSpace c = false) :
    pyStrip cs = cs := by
  unfold pyStrip
  rw [dropWhile_eq_self_of_not cs h]
  rw [dropWhile_eq_self_of_not cs.reverse (fun c hc => h c (List.mem_reverse.mp hc))]
  exact List.reverse_reverse cs

theorem windowLoop_keep (cs : List Char) (csize step minc fuel start : ℕ)
    (h : start < cs.length) (hkeep : minc ≤ (pyStrip ((cs.drop start).take csize)).length) :
    windowLoop cs csize step minc (fuel + 1) start =
      (⟨pyStrip ((cs.drop start).take csize)⟩ : String) ::
        windowLoop cs csize step minc fuel (start + step) := by
  rw [windowLoop, if_pos h, if_pos hkeep]

theorem windowLoop_skip (cs : List Char) (csize step minc fuel start : ℕ)
    (h : start < cs.length) (hdrop : ¬ minc ≤ (pyStrip ((cs.drop start).take csize)).length) :
    windowLoop cs csize step minc (fuel + 1) start =
      windowLoop cs csize step minc fuel (start + step) := by
  rw [windowLoop, if_pos h, if_neg hdrop]

theorem windowLoop_stop (cs : List Char) (csize step minc fuel start : ℕ)
    (h : ¬ start < cs.length) :
    windowLoop cs csize step minc (fuel + 1) start = [] := by
  rw [windowLoop, if_neg h]

theorem stringMk_data (s : String) : (⟨s.data⟩ : String) = s := rfl

/-- On a whitespace-free 250-character input, `chunk_content 100 20 20`
produces exactly the three windows `[0:100]`, `[80:180]`, `[160:250]` (the
fourth window `[240:250]` is 10 characters, below `min_chars`). -/
theorem chunk_content_250 (content : String) (h250 : content.length = 250)
    (hws : ∀ c ∈ content.data, pyIsSpace c = false) :
    chunk_content content 100 20 20 =
      [⟨content.data.take 100⟩, ⟨(content.data.drop 80).take 100⟩,
       ⟨(content.data.drop 160).take 100⟩] := by
  have hlen : content.data.length = 250 := h250
  have hnl : ∀ c ∈ content.data, c ≠ '\n' := by
    intro c hc heq
    have := hws c hc
    rw [heq] at this
    simp [pyIsSpace] at this
  have hsplit : splitParagraphs content = [content] := by
    unfold splitParagraphs
    rw [splitBlankAux_no_newline content.data [] hnl]
    simp [stringMk_data]
  have hstripSelf : pyStripS content = content := by
    unfold pyStripS
    rw [pyStrip_of_no_space content.data hws, stringMk_data]
  have hstripSub : ∀ start csize : ℕ,
      pyStrip ((content.data.drop start).take csize) =
        (content.data.drop start).take csize := by
    intro start csize
    exact pyStrip_of_no_space _ fun c hc =>
      hws c (List.mem_of_mem_drop (List.mem_of_mem_take hc))
  have hlenw : ∀ start csize : ℕ,
      ((content.data.drop start).take csize).length = min csize (250 - start) := by
    intro start csize
    rw [List.length_take, List.length_drop, hlen]
  unfold chunk_content
  rw [if_neg (by norm_num)]
  rw [hsplit]
  simp only [List.map_cons, List.map_nil, hstripSelf, List.flatMap_cons, List.flatMap_nil]
  rw [if_neg (by rw [h250]; norm_num), if_neg (by rw [h250]; norm_num)]
  have hstep : ((100 : ℤ) - 20 ≤ 0) = False := by norm_num
  simp only [hstep, if_false]
  rw [hlen]
  norm_num
  rw [show (251 : ℕ) = 250 + 1 from rfl,
    windowLoop_keep _ _ _ _ _ _ (by rw [hlen]; decide)
      (by rw [hstripSub, hlenw]; decide)]
  rw [show (250 : ℕ) = 249 + 1 from rfl,
    windowLoop_keep _ _ _ _ _ _ (by rw [hlen]; decide)
      (by rw [hstripSub, hlenw]; decide)]
  rw [show (249 : ℕ) = 248 + 1 from rfl,
    windowLoop_keep _ _ _ _ _ _ (by rw [hlen]; decide)
      (by rw [hstripSub, hlenw]; decide)]
  rw [show (248 : ℕ) = 247 + 1 from rfl,
    windowLoop_skip _ _ _ _ _ _ (by rw [hlen]; decide)
      (by rw [hstripSub, hlenw]; decide)]
  rw [show (247 : ℕ) = 246 + 1 from rfl,
    windowLoop_stop _ _ _ _ _ _ (by rw [hlen]; decide)]
  simp only [hstripSub]
  norm_num
  exact ⟨rfl, rfl, rfl⟩

/-- C8 (amended): for every whitespace-free paragraph of exactly 250
characters, `chunk_content` with chunk size 100 and overlap 20 yields at
least 3 chunks, and the last 20 characters of each chunk equal the first 20
characters of the next.  (The source strips each window with `str.strip`,
so the stated overlap only survives when no whitespace sits at a window
boundary; whitespace-freeness is the amendment.) -/
theorem c8_chunk_overlap (content : String) (h250 : content.length = 250)
    (hws : ∀ c ∈ content.data, pyIsSpace c = false) :
    3 ≤ (chunk_content content 100 20 20).length ∧
    ∀ i : ℕ, i + 1 < (chunk_content content 100 20 20).length →
      lastChars 20 ((chunk_content content 100 20 20).getD i "") =
        firstChars 20 ((chunk_content content 100 20 20).getD (i + 1) "") := by
  have hlen : content.data.length = 250 := h250
  rw [chunk_content_250 content h250 hws]
  refine ⟨by norm_num, ?_⟩
  intro i hi
  simp only [List.length_cons, List.length_nil] at hi
  rcases i with _ | _ | i
  · show lastChars 20 ⟨content.data.take 100⟩ = firstChars 20 ⟨(content.data.drop 80).take 100⟩
    unfold lastChars firstChars
    simp only [List.take_take]
    congr 1
    rw [List.length_take, hlen]
    norm_num
    rw [List.drop_take]
  · show lastChars 20 ⟨(content.data.drop 80).take 100⟩ =
      firstChars 20 ⟨(content.data.drop 160).take 100⟩
    unfold lastChars firstChars
    simp only [List.take_take]
    congr 1
    rw [List.length_take, List.length_drop, hlen]
    norm_num
    rw [List.drop_take, List.drop_drop]
  · omega

def c8example : String :=
  ⟨List.replicate 250 'a'⟩

set_option maxRecDepth 4000 in
/-- Witness for C8 at a concrete whitespace-free 250-character paragraph. -/
theorem c8_chunk_overlap_witness :
    3 ≤ (chunk_content c8example 100 20 20).length ∧
    lastChars 20 ((chunk_content c8example 100 20 20).getD 0 "") =
      firstChars 20 ((chunk_content c8example 100 20 20).getD 1 "") := by
  have h := c8_chunk_overlap c8example (by decide) (by decide)
  exact ⟨h.1, h.2 0 (lt_of_lt_of_le (by norm_num) h.1)⟩

/-- Counterexample input for C8: 250 characters with a space at index 99. -/
def c8counter : String :=
  ⟨List.replicate 99 'a' ++ ' ' :: List.replicate 150 'a'⟩

set_option maxRecDepth 10000 in
/-- Counterexample to C8 as stated: a 250-character paragraph (no blank
lines) with a space at index 99.  `chunk_content 100 20 20` still yields 3
chunks, but the first window is stripped to 99 characters, so its last 20
characters no longer equal the first 20 characters of the second chunk.
Verified by kernel evaluation. -/
theorem c8_counterexample :
    c8counter.length = 250 ∧
    c8counter.data.all (fun c => c ≠ '\n') = true ∧
    3 ≤ (chunk_content c8counter 100 20 20).length ∧
    lastChars 20 ((chunk_content c8counter 100 20 20).getD 0 "") ≠
      firstChars 20 ((chunk_content c8counter 100 20 20).getD 1 "") := by
  decide

/-! ## Claim C9: keyword locator on all-zero scores -/

theorem filterMap_eq_map_of {α β : Type} (l : List α) (g : α → Option β) (f : α → β)
    (h : ∀ x ∈ l, g x = some (f x)) : l.filterMap g = l.map f := by
  induction l with
  | nil => rfl
  | cons a t ih =>
    rw [List.filterMap_cons, h a (List.mem_cons_self _ _), List.map_cons,
      ih fun x hx => h x (List.mem_cons_of_mem _ hx)]


/-- C9 (amended): when every leaf scores zero, the keyword locator still
returns the top `min(max(1, top_k), leaf count)` leaves in document order
(sorting is stable, so the all-tied ranking keeps traversal order) — a
non-empty result, but exactly one `NodeLocateResult` only when `top_k ≤ 1`
or the tree has a single leaf, not for every `top_k`. -/
theorem c9_keyword_locate_zero_scores (query : String) (tree_data : TreeData) (top_k : ℤ)
    (hleaf : leafNodes tree_data ≠ [])
    (hids : ∀ node ∈ leafNodes tree_data, node.node_id ≠ "")
    (hzero : ∀ node ∈ leafNodes tree_data,
      keywordScore ((tokenize query).dedup) node = 0) :
    (keyword_locate query tree_data top_k).1 =
      ((leafNodes tree_data).take (max 1 top_k).toNat).map
        (fun node => (⟨node.node_id, query⟩ : NodeLocateResult)) ∧
    (keyword_locate query tree_data top_k).1 ≠ [] ∧
    (keyword_locate query tree_data top_k).1.length =
      min (max 1 top_k).toNat (leafNodes tree_data).length := by
  have hsorted : List.Sorted scoreDesc
      ((leafNodes tree_data).map fun node =>
        (keywordScore ((tokenize query).dedup) node, node)) := by
    rw [List.Sorted, List.pairwise_map]
    apply List.Pairwise.imp_of_mem (fun ha hb _ => ?_) (List.pairwise_of_forall fun _ _ => trivial)
    show scoreDesc _ _
    unfold scoreDesc
    rw [hzero _ ha, hzero _ hb]
  have hranked : List.insertionSort scoreDesc
      ((leafNodes tree_data).map fun node =>
        (keywordScore ((tokenize query).dedup) node, node)) =
      (leafNodes tree_data).map fun node =>
        (keywordScore ((tokenize query).dedup) node, node) :=
    hsorted.insertionSort_eq
  have hsel : ((List.insertionSort scoreDesc
        ((leafNodes tree_data).map fun node =>
          (keywordScore ((tokenize query).dedup) node, node))).take
            (max 1 top_k).toNat).filterMap
        (fun item => if item.2.node_id ≠ "" then some item.2 else none) =
      (leafNodes tree_data).take (max 1 top_k).toNat := by
    rw [hranked, ← List.map_take, filterMap_eq_map_of _ _ (fun item => item.2), List.map_map]
    · rw [show ((fun item : ℚ × TreeNode => item.2) ∘ fun node =>
        (keywordScore ((tokenize query).dedup) node, node)) = id from rfl, List.map_id]
    · intro x hx
      rw [List.mem_map] at hx
      obtain ⟨node, hnode, heq⟩ := hx
      rw [if_pos]
      rw [← heq]
      exact hids node (List.mem_of_mem_take hnode)
  have htake_ne : (leafNodes tree_data).take (max 1 top_k).toNat ≠ [] := by
    have h1 : 1 ≤ (max 1 top_k).toNat := by
      have : (1 : ℤ) ≤ max 1 top_k := le_max_left _ _
      omega
    intro hnil
    have := congrArg List.length hnil
    rw [List.length_take] at this
    simp only [List.length_nil] at this
    rcases Nat.min_eq_zero_iff.mp this with h | h
    · omega
    · exact hleaf (List.length_eq_zero.mp h)
  unfold keyword_locate
  simp only []
  rw [hsel]
  rw [if_neg (by simpa [List.isEmpty_iff] using htake_ne)]
  refine ⟨rfl, ?_, ?_⟩
  · intro hnil
    rw [List.map_eq_nil_iff] at hnil
    exact htake_ne hnil
  · rw [List.length_map, List.length_take]

/-- A two-leaf tree whose leaves share no tokens with the query `"zzz"`. -/
def c9tree : TreeData :=
  { doc_id := some "doc"
    tree := .mk "root" none none none none none (.ofList
      [.mk "0001" (some "alpha") (some "first section") none none (some true) .nil,
       .mk "0002" (some "beta") (some "second section") none none (some true) .nil]) }

unseal Rat.mul Rat.add Rat.inv Rat.sub in
/-- Witness for C9 (amended) at a concrete all-zero-score tree. -/
theorem c9_keyword_locate_zero_scores_witness :
    (keyword_locate "zzz" c9tree 2).1 =
      ((leafNodes c9tree).take (max 1 (2 : ℤ)).toNat).map
        (fun node => (⟨node.node_id, "zzz"⟩ : NodeLocateResult)) ∧
    (keyword_locate "zzz" c9tree 2).1 ≠ [] ∧
    (keyword_locate "zzz" c9tree 2).1.length =
      min (max 1 (2 : ℤ)).toNat (leafNodes c9tree).length :=
  c9_keyword_locate_zero_scores "zzz" c9tree 2
    (by intro h; exact absurd (congrArg List.length h) (by decide))
    (by decide) (by decide)

unseal Rat.mul Rat.add Rat.inv Rat.sub in
/-- Counterexample to C9 as stated: on a two-leaf tree where every leaf's
keyword score is zero, `_keyword_locate` with `top_k = 2` returns two
results, not "exactly one NodeLocateResult" — the single-node fallback only
triggers when the selection is empty, not when all scores are zero. -/
theorem c9_counterexample :
    ((leafNodes c9tree).all fun node =>
      decide (keywordScore ((tokenize "zzz").dedup) node = 0)) = true ∧
    (keyword_locate "zzz" c9tree 2).1.length = 2 ∧
    (keyword_locate "zzz" c9tree 2).1.length ≠ 1 := by
  decide

/-! ## Claim C4: node locator falls back in full -/

/-- C4: whenever the model-assisted path fails — the backend call raises or
its response defeats both JSON parses (`outcome = .error ()`), or the
payload yields zero valid leaf entries after validation — `locate_nodes`
returns exactly `_keyword_locate`'s full result: the same node list and the
keyword strategy's own reasoning text. -/
theorem c4_locate_nodes_fallback (query : String) (tree_data : TreeData)
    (config : RagConfig) (top_k : Option ℤ) (outcome : Except Unit LocPayload)
    (hfail : outcome = .error () ∨
      ∃ payload, outcome = .ok payload ∧
        collectLocResults query ((leafNodes tree_data).map fun node => node.node_id)
          (locatorResolvedTopK config top_k) payload.results = []) :
    locate_nodes query tree_data config (some outcome) false top_k =
      keyword_locate query tree_data (locatorResolvedTopK config top_k) := by
  rcases hfail with hfail | ⟨payload, hok, hempty⟩
  · rw [hfail]
    rfl
  · rw [hok]
    unfold locate_nodes
    simp only [hempty, List.isEmpty_nil, if_true]

def c4tree : TreeData :=
  { doc_id := some "doc"
    tree := .mk "root" none none none none none (.ofList
      [.mk "0001" (some "alpha") (some "first section") none none (some true) .nil]) }

def c4config : RagConfig :=
  { openai_api_key := "", openai_base_url := "", llm_model := "", embed_model := "",
    rerank_model := "", timeout_seconds := 30, top_k := 3, dense_weight := 7 / 10,
    bm25_weight := 3 / 10, rerank_diversify := true, rerank_min_unique_nodes := 0 }

/-- Witness for C4 at a concrete tree: a raised/unparseable model response
falls back to the keyword strategy in full, and so does a parsed payload
whose entries are all invalid. -/
theorem c4_locate_nodes_fallback_witness :
    locate_nodes "q" c4tree c4config (some (.error ())) false none =
      keyword_locate "q" c4tree (locatorResolvedTopK c4config none) ∧
    locate_nodes "q" c4tree c4config
        (some (.ok { thinking := some "t", results := [.entry (some "bogus") none] }))
        false none =
      keyword_locate "q" c4tree (locatorResolvedTopK c4config none) :=
  ⟨c4_locate_nodes_fallback "q" c4tree c4config none _ (Or.inl rfl),
   c4_locate_nodes_fallback "q" c4tree c4config none _
     (Or.inr ⟨_, rfl, by decide⟩)⟩

/-! ## Claim C2: index persistence round-trip -/

/-- Loading a saved index reproduces the document id, the node-id list, and
every chunk (id, text, source node, heading path, and embedding) verbatim,
for any `RagIndex` whatsoever. -/
theorem load_save_roundtrip (index : RagIndex) :
    (load_index (save_index index)).doc_id = index.doc_id ∧
    (load_index (save_index index)).nodes.map Prod.fst = index.nodes.map Prod.fst ∧
    (load_index (save_index index)).all_chunks = index.all_chunks := by
  refine ⟨rfl, ?_, ?_⟩
  · simp only [load_index, save_index, List.map_map]
    rfl
  · simp only [load_index, save_index]
    apply List.ext_getElem
    · simp
    · intro i h1 h2
      simp only [List.getElem_map, List.getElem_enum]
      have hmat : (List.map (fun chunk => chunk.embedding) index.all_chunks).getD i [] =
          index.all_chunks[i].embedding := by
        rw [List.getD_eq_getElem?_getD, List.getElem?_map,
          List.getElem?_eq_getElem h2]
        rfl
      rw [hmat]

/-- C2: for every `RagIndex` produced by `build_index_from_tree`,
`load_index (save_index index)` reproduces the same `doc_id`, the same
node-id list (hence node-id set), the same total chunk count, and, for
every chunk, the same `chunk_id`, `text`, `source_node_id`, `heading_path`
and embedding vector (the chunk lists are equal element-for-element). -/
theorem c2_index_roundtrip (tree_data : TreeData)
    (embed_texts : List String → List (List ℚ))
    (bm25_build : List (List String) → (List String → List ℚ)) :
    (load_index (save_index (build_index_from_tree tree_data embed_texts bm25_build))).doc_id =
      (build_index_from_tree tree_data embed_texts bm25_build).doc_id ∧
    (load_index (save_index (build_index_from_tree tree_data embed_texts bm25_build))).nodes.map
        Prod.fst =
      (build_index_from_tree tree_data embed_texts bm25_build).nodes.map Prod.fst ∧
    (load_index (save_index (build_index_from_tree tree_data embed_texts bm25_build))).all_chunks.length =
      (build_index_from_tree tree_data embed_texts bm25_build).all_chunks.length ∧
    (load_index (save_index (build_index_from_tree tree_data embed_texts bm25_build))).all_chunks =
      (build_index_from_tree tree_data embed_texts bm25_build).all_chunks := by
  obtain ⟨h1, h2, h3⟩ := load_save_roundtrip (build_index_from_tree tree_data embed_texts bm25_build)
  exact ⟨h1, h2, by rw [h3], h3⟩

/-! ## Reranker lemmas -/

theorem score_candidates_map_chunk (query : String) (chunks : List RetrievedChunk)
    (client : Option RerankClient) (mock : Bool) :
    (score_candidates query chunks client mock).map (fun item => item.chunk) =
      chunks.map fun item => item.chunk := by
  unfold score_candidates
  by_cases hm : mock
  · rw [if_pos hm]
  · rw [if_neg hm]
    cases client with
    | none => rfl
    | some rerank =>
      dsimp only
      cases ho : rerank query (chunks.map fun item => item.chunk.text) with
      | error e => rfl
      | ok scores =>
        dsimp only
        by_cases hlen : scores.length ≠ chunks.length
        · rw [if_pos hlen]
        · rw [if_neg hlen]
          push_neg at hlen
          rw [List.map_map]
          have : ((fun item : RetrievedChunk => item.chunk) ∘ fun p : RetrievedChunk × ℚ =>
              { p.1 with
                score := p.2
                retrieval_detail :=
                  assocSet p.1.retrieval_detail "rerank_score" (round4 p.2) }) =
              fun p : RetrievedChunk × ℚ => p.1.chunk := rfl
          rw [this, show (fun p : RetrievedChunk × ℚ => p.1.chunk) =
            ((fun item : RetrievedChunk => item.chunk) ∘ Prod.fst) from rfl,
            ← List.map_map, List.map_fst_zip]
          omega

theorem score_candidates_length (query : String) (chunks : List RetrievedChunk)
    (client : Option RerankClient) (mock : Bool) :
    (score_candidates query chunks client mock).length = chunks.length := by
  have h := congrArg List.length (score_candidates_map_chunk query chunks client mock)
  simpa using h

theorem score_candidates_none (query : String) (chunks : List RetrievedChunk) (mock : Bool) :
    score_candidates query chunks none mock = chunks := by
  unfold score_candidates
  by_cases hm : mock
  · rw [if_pos hm]
  · rw [if_neg hm]

theorem score_candidates_failed (query : String) (chunks : List RetrievedChunk)
    (rerank : RerankClient)
    (hfail : rerank query (chunks.map fun item => item.chunk.text) = .error () ∨
      ∃ scores, rerank query (chunks.map fun item => item.chunk.text) = .ok scores ∧
        scores.length ≠ chunks.length) :
    score_candidates query chunks (some rerank) false = chunks := by
  unfold score_candidates
  rw [if_neg (by simp)]
  dsimp only
  rcases hfail with hfail | ⟨scores, hok, hlen⟩
  · rw [hfail]
  · rw [hok]
    dsimp only
    rw [if_pos hlen]

theorem seedGo_shape (target k : ℕ) :
    ∀ (items sel : List (ℕ × RetrievedChunk)) (seeded : List String),
    ∃ e, (seedGo target k items sel seeded).1 = sel ++ e ∧
      (seedGo target k items sel seeded).2 =
        seeded ++ e.map (fun it => it.2.chunk.source_node_id) ∧
      e.Sublist items
  | [], sel, seeded => ⟨[], by simp [seedGo]⟩
  | item :: rest, sel, seeded => by
    by_cases hmem : item.2.chunk.source_node_id ∈ seeded
    · obtain ⟨e, h1, h2, h3⟩ := seedGo_shape target k rest sel seeded
      exact ⟨e, by rw [seedGo, if_pos hmem]; exact h1,
        by rw [seedGo, if_pos hmem]; exact h2, h3.cons item⟩
    · by_cases hbrk : target ≤ (seeded ++ [item.2.chunk.source_node_id]).length ∨
        k ≤ (sel ++ [item]).length
      · refine ⟨[item], ?_, ?_, (List.nil_sublist rest).cons₂ item⟩
        · rw [seedGo, if_neg hmem, if_pos hbrk]
        · rw [seedGo, if_neg hmem, if_pos hbrk]
          simp
      · obtain ⟨e, h1, h2, h3⟩ := seedGo_shape target k rest (sel ++ [item])
          (seeded ++ [item.2.chunk.source_node_id])
        refine ⟨item :: e, ?_, ?_, h3.cons₂ item⟩
        · rw [seedGo, if_neg hmem, if_neg hbrk, h1]
          simp
        · rw [seedGo, if_neg hmem, if_neg hbrk, h2]
          simp

theorem seedGo_nodup (target k : ℕ) :
    ∀ (items sel : List (ℕ × RetrievedChunk)) (seeded : List String),
    seeded.Nodup → (seedGo target k items sel seeded).2.Nodup
  | [], _, seeded, h => by simpa [seedGo] using h
  | item :: rest, sel, seeded, h => by
    by_cases hmem : item.2.chunk.source_node_id ∈ seeded
    · rw [seedGo, if_pos hmem]
      exact seedGo_nodup target k rest sel seeded h
    · have hnd : (seeded ++ [item.2.chunk.source_node_id]).Nodup := by
        simp [List.nodup_append, h, hmem]
      by_cases hbrk : target ≤ (seeded ++ [item.2.chunk.source_node_id]).length ∨
        k ≤ (sel ++ [item]).length
      · rw [seedGo, if_neg hmem, if_pos hbrk]
        exact hnd
      · rw [seedGo, if_neg hmem, if_neg hbrk]
        exact seedGo_nodup target k rest _ _ hnd

theorem seedGo_len_eq (target k : ℕ) :
    ∀ (items sel : List (ℕ × RetrievedChunk)) (seeded : List String),
    sel.length = seeded.length →
    (seedGo target k items sel seeded).1.length = (seedGo target k items sel seeded).2.length
  | [], _, _, h => by simpa [seedGo] using h
  | item :: rest, sel, seeded, h => by
    by_cases hmem : item.2.chunk.source_node_id ∈ seeded
    · rw [seedGo, if_pos hmem]
      exact seedGo_len_eq target k rest sel seeded h
    · by_cases hbrk : target ≤ (seeded ++ [item.2.chunk.source_node_id]).length ∨
        k ≤ (sel ++ [item]).length
      · rw [seedGo, if_neg hmem, if_pos hbrk]
        simp [h]
      · rw [seedGo, if_neg hmem, if_neg hbrk]
        exact seedGo_len_eq target k rest _ _ (by simp [h])

theorem seedGo_len_le (target k : ℕ) :
    ∀ (items sel : List (ℕ × RetrievedChunk)) (seeded : List String),
    sel.length < k → (seedGo target k items sel seeded).1.length ≤ k
  | [], sel, seeded, h => by
    rw [seedGo]
    exact le_of_lt h
  | item :: rest, sel, seeded, h => by
    by_cases hmem : item.2.chunk.source_node_id ∈ seeded
    · rw [seedGo, if_pos hmem]
      exact seedGo_len_le target k rest sel seeded h
    · by_cases hbrk : target ≤ (seeded ++ [item.2.chunk.source_node_id]).length ∨
        k ≤ (sel ++ [item]).length
      · rw [seedGo, if_neg hmem, if_pos hbrk]
        simp only [List.length_append, List.length_cons, List.length_nil]
        omega
      · by_cases hk : (sel ++ [item]).length < k
        · rw [seedGo, if_neg hmem, if_neg hbrk]
          exact seedGo_len_le target k rest _ _ hk
        · exact absurd (Or.inr (by omega)) hbrk

theorem seedGo_reach (target k : ℕ) (htk : target ≤ k) :
    ∀ (items sel : List (ℕ × RetrievedChunk)) (seeded : List String),
    sel.length = seeded.length →
    target ≤ (seedGo target k items sel seeded).2.length ∨
      ∀ it ∈ items, it.2.chunk.source_node_id ∈ (seedGo target k items sel seeded).2
  | [], _, _, _ => Or.inr (by simp)
  | item :: rest, sel, seeded, hlen => by
    by_cases hmem : item.2.chunk.source_node_id ∈ seeded
    · rcases seedGo_reach target k htk rest sel seeded hlen with hr | hr
      · left
        rw [seedGo, if_pos hmem]
        exact hr
      · right
        intro it hit
        rw [seedGo, if_pos hmem]
        rcases List.mem_cons.mp hit with heq | hmem'
        · obtain ⟨e, _, h2, _⟩ := seedGo_shape target k rest sel seeded
          rw [h2, heq]
          exact List.mem_append_left _ hmem
        · exact hr it hmem'
    · by_cases hbrk : target ≤ (seeded ++ [item.2.chunk.source_node_id]).length ∨
        k ≤ (sel ++ [item]).length
      · left
        rw [seedGo, if_neg hmem, if_pos hbrk]
        rcases hbrk with hbrk | hbrk
        · exact hbrk
        · simp only [List.length_append, List.length_cons, List.length_nil] at hbrk ⊢
          omega
      · have hlen' : (sel ++ [item]).length =
            (seeded ++ [item.2.chunk.source_node_id]).length := by simp [hlen]
        rcases seedGo_reach target k htk rest (sel ++ [item])
            (seeded ++ [item.2.chunk.source_node_id]) hlen' with hr | hr
        · left
          rw [seedGo, if_neg hmem, if_neg hbrk]
          exact hr
        · right
          intro it hit
          rw [seedGo, if_neg hmem, if_neg hbrk]
          rcases List.mem_cons.mp hit with heq | hmem'
          · obtain ⟨e, _, h2, _⟩ := seedGo_shape target k rest (sel ++ [item])
              (seeded ++ [item.2.chunk.source_node_id])
            rw [h2, heq]
            exact List.mem_append_left _ (List.mem_append_right _ (List.mem_singleton_self _))
          · exact hr it hmem'

theorem fillGo_shape (k : ℕ) :
    ∀ (items sel : List (ℕ × RetrievedChunk)),
    ∃ e, fillGo k items sel = sel ++ e
  | [], sel => ⟨[], by simp [fillGo]⟩
  | item :: rest, sel => by
    by_cases hstop : k ≤ sel.length
    · exact ⟨[], by rw [fillGo, if_pos hstop]; simp⟩
    · by_cases hmem : item.1 ∈ sel.map Prod.fst
      · obtain ⟨e, he⟩ := fillGo_shape k rest sel
        exact ⟨e, by rw [fillGo, if_neg hstop, if_pos hmem]; exact he⟩
      · obtain ⟨e, he⟩ := fillGo_shape k rest (sel ++ [item])
        exact ⟨item :: e, by rw [fillGo, if_neg hstop, if_neg hmem, he]; simp⟩

theorem fillGo_len_le (k : ℕ) :
    ∀ (items sel : List (ℕ × RetrievedChunk)),
    sel.length ≤ k → (fillGo k items sel).length ≤ k
  | [], sel, h => by rw [fillGo]; exact h
  | item :: rest, sel, h => by
    by_cases hstop : k ≤ sel.length
    · rw [fillGo, if_pos hstop]
      exact h
    · by_cases hmem : item.1 ∈ sel.map Prod.fst
      · rw [fillGo, if_neg hstop, if_pos hmem]
        exact fillGo_len_le k rest sel h
      · rw [fillGo, if_neg hstop, if_neg hmem]
        exact fillGo_len_le k rest _ (by simp only [List.length_append,
          List.length_cons, List.length_nil]; omega)

theorem fillGo_len_ge (k : ℕ) :
    ∀ (items sel : List (ℕ × RetrievedChunk)),
    (items.map Prod.fst).Nodup →
    k ≤ sel.length + (items.filter fun it => it.1 ∉ sel.map Prod.fst).length →
    k ≤ (fillGo k items sel).length
  | [], sel, _, h => by
    rw [fillGo]
    simpa using h
  | item :: rest, sel, hnd, h => by
    have hndr : (rest.map Prod.fst).Nodup := by
      rw [List.map_cons] at hnd
      exact hnd.of_cons
    have hhead : item.1 ∉ rest.map Prod.fst := by
      rw [List.map_cons] at hnd
      exact (List.nodup_cons.mp hnd).1
    by_cases hstop : k ≤ sel.length
    · rw [fillGo, if_pos hstop]
      exact hstop
    · by_cases hmem : item.1 ∈ sel.map Prod.fst
      · rw [fillGo, if_neg hstop, if_pos hmem]
        apply fillGo_len_ge k rest sel hndr
        rw [List.filter_cons] at h
        simpa [hmem] using h
      · rw [fillGo, if_neg hstop, if_neg hmem]
        apply fillGo_len_ge k rest (sel ++ [item]) hndr
        have hfilter : (rest.filter fun it => it.1 ∉ (sel ++ [item]).map Prod.fst) =
            (rest.filter fun it => it.1 ∉ sel.map Prod.fst) := by
          apply List.filter_congr
          intro x hx
          have hxne : x.1 ≠ item.1 := by
            intro heq
            exact hhead (heq ▸ List.mem_map_of_mem Prod.fst hx)
          simp [List.map_append, hxne]
        rw [hfilter]
        rw [List.filter_cons] at h
        simp only [hmem] at h
        simp only [not_false_iff, decide_true_eq_true, if_true, List.length_cons,
          List.length_append, List.length_nil] at h ⊢
        omega

theorem filter_mem_sublist {α : Type} [DecidableEq α] :
    ∀ {S N : List α}, S.Sublist N → N.Nodup → N.filter (· ∈ S) = S := by
  intro S N h
  induction h with
  | slnil => intro _; rfl
  | @cons S N a h ih =>
    intro hnd
    rw [List.filter_cons]
    have ha : a ∉ S := fun hmem => (List.nodup_cons.mp hnd).1 (h.subset hmem)
    rw [if_neg (by simp [ha])]
    exact ih (List.nodup_cons.mp hnd).2
  | @cons₂ S N a h ih =>
    intro hnd
    rw [List.filter_cons]
    have hfx : N.filter (· ∈ a :: S) = N.filter (· ∈ S) := by
      apply List.filter_congr
      intro x hx
      have hxa : x ≠ a := fun heq => (List.nodup_cons.mp hnd).1 (heq ▸ hx)
      simp [List.mem_cons, hxa]
    rw [hfx, ih (List.nodup_cons.mp hnd).2]
    simp

theorem length_filter_pair {α : Type} (p : α → Bool) :
    ∀ l : List α, (l.filter p).length + (l.filter fun a => ! p a).length = l.length
  | [] => rfl
  | a :: rest => by
    have h := length_filter_pair p rest
    rw [List.filter_cons, List.filter_cons]
    cases hp : p a <;> simp [hp] <;> omega

theorem filter_not_mem_length (sel tagged : List (ℕ × RetrievedChunk))
    (hsub : sel.Sublist tagged) (hnd : (tagged.map Prod.fst).Nodup) :
    (tagged.filter fun it => it.1 ∉ sel.map Prod.fst).length =
      tagged.length - sel.length := by
  have hS : (sel.map Prod.fst).Sublist (tagged.map Prod.fst) := hsub.map _
  have hcomm := List.filter_map (p := fun x => decide (x ∈ sel.map Prod.fst)) Prod.fst tagged
  rw [filter_mem_sublist hS hnd] at hcomm
  have hlen := congrArg List.length hcomm
  simp only [List.length_map, Function.comp_def] at hlen
  have hpair := length_filter_pair
    (fun it : ℕ × RetrievedChunk => decide (it.1 ∈ sel.map Prod.fst)) tagged
  have hneg : (tagged.filter fun it => it.1 ∉ sel.map Prod.fst) =
      (tagged.filter fun it => ! decide (it.1 ∈ sel.map Prod.fst)) := by
    apply List.filter_congr
    intro x _
    simp [decide_not]
  rw [hneg]
  have hsel_le := hsub.length_le
  omega

theorem targetUniqueNodes_le_k (config : RagConfig) (available k : ℕ) :
    targetUniqueNodes config available k ≤ k := by
  unfold targetUniqueNodes
  by_cases hd : config.rerank_diversify
  · rw [if_pos hd]
    by_cases ho : 0 < config.rerank_min_unique_nodes
    · rw [if_pos ho]
      exact le_trans (min_le_right _ _) (min_le_left _ _)
    · rw [if_neg ho]
      exact le_trans (min_le_right _ _) (min_le_left _ _)
  · rw [if_neg hd]
    exact Nat.zero_le _

theorem enum_fst_nodup (ranked : List RetrievedChunk) :
    (ranked.enum.map Prod.fst).Nodup := by
  rw [List.enum_map_fst]
  exact List.nodup_range _

theorem fill_length_eq (k : ℕ) (tagged sel : List (ℕ × RetrievedChunk))
    (hnd : (tagged.map Prod.fst).Nodup) (hsub : sel.Sublist tagged)
    (hsel : sel.length ≤ k) (hk : k ≤ tagged.length) :
    (fillGo k tagged sel).length = k := by
  have hge := fillGo_len_ge k tagged sel hnd (by
    rw [filter_not_mem_length sel tagged hsub hnd]
    have := hsub.length_le
    omega)
  have hle := fillGo_len_le k tagged sel hsel
  omega

theorem selectFromRanked_length (ranked : List RetrievedChunk) (config : RagConfig)
    (resolved : ℕ) :
    (selectFromRanked ranked config resolved).length = min resolved ranked.length := by
  simp only [selectFromRanked]
  rw [List.length_map, List.length_insertionSort]
  have hnd := enum_fst_nodup ranked
  have hklen : min resolved ranked.length ≤ ranked.enum.length := by
    rw [List.enum_length]
    exact min_le_right _ _
  by_cases hs : config.rerank_diversify ∧ 0 < targetUniqueNodes config
      ((ranked.map fun item => item.chunk.source_node_id).dedup).length
      (min resolved ranked.length)
  · rw [if_pos hs]
    have htk := targetUniqueNodes_le_k config
      ((ranked.map fun item => item.chunk.source_node_id).dedup).length
      (min resolved ranked.length)
    have hkpos : 0 < min resolved ranked.length := lt_of_lt_of_le hs.2 htk
    obtain ⟨e, he1, _, he3⟩ := seedGo_shape (targetUniqueNodes config
      ((ranked.map fun item => item.chunk.source_node_id).dedup).length
      (min resolved ranked.length)) (min resolved ranked.length) ranked.enum [] []
    have hsub : (seedGo (targetUniqueNodes config
        ((ranked.map fun item => item.chunk.source_node_id).dedup).length
        (min resolved ranked.length)) (min resolved ranked.length) ranked.enum [] []).1.Sublist
        ranked.enum := by
      rw [he1, List.nil_append]
      exact he3
    have hle := seedGo_len_le (targetUniqueNodes config
      ((ranked.map fun item => item.chunk.source_node_id).dedup).length
      (min resolved ranked.length)) (min resolved ranked.length) ranked.enum [] []
      (by simpa using hkpos)
    exact fill_length_eq _ _ _ hnd hsub hle hklen
  · rw [if_neg hs]
    exact fill_length_eq _ _ _ hnd (List.nil_sublist _) (Nat.zero_le _) hklen

theorem nodup_length_le_of_subset {α : Type} [DecidableEq α] {l₁ l₂ : List α}
    (hnd : l₁.Nodup) (hsub : l₁ ⊆ l₂) : l₁.length ≤ l₂.length :=
  calc l₁.length = l₁.toFinset.card := by
        rw [List.toFinset_card_of_nodup hnd]
    _ ≤ l₂.toFinset.card := Finset.card_le_card fun a ha =>
        List.mem_toFinset.mpr (hsub (List.mem_toFinset.mp ha))
    _ ≤ l₂.length := l₂.toFinset_card_le

theorem targetUniqueNodes_le_available (config : RagConfig) (available k : ℕ) :
    targetUniqueNodes config available k ≤ available := by
  unfold targetUniqueNodes
  by_cases hd : config.rerank_diversify
  · rw [if_pos hd]
    by_cases ho : 0 < config.rerank_min_unique_nodes
    · rw [if_pos ho]
      exact min_le_left _ _
    · rw [if_neg ho]
      exact min_le_left _ _
  · rw [if_neg hd]
    exact Nat.zero_le _

theorem selectFromRanked_coverage (ranked : List RetrievedChunk) (config : RagConfig)
    (resolved : ℕ) :
    targetUniqueNodes config ((ranked.map fun item => item.chunk.source_node_id).dedup).length
        (min resolved ranked.length) ≤
      (((selectFromRanked ranked config resolved).map fun item =>
        item.chunk.source_node_id).dedup).length := by
  rcases Nat.eq_zero_or_pos (targetUniqueNodes config
      ((ranked.map fun item => item.chunk.source_node_id).dedup).length
      (min resolved ranked.length)) with h0 | hpos
  · rw [h0]
    exact Nat.zero_le _
  by_cases hd : config.rerank_diversify
  case neg =>
    unfold targetUniqueNodes at hpos
    rw [if_neg hd] at hpos
    omega
  have hs : config.rerank_diversify ∧ 0 < targetUniqueNodes config
      ((ranked.map fun item => item.chunk.source_node_id).dedup).length
      (min resolved ranked.length) := ⟨hd, hpos⟩
  simp only [selectFromRanked]
  rw [if_pos hs]
  have htk := targetUniqueNodes_le_k config
    ((ranked.map fun item => item.chunk.source_node_id).dedup).length
    (min resolved ranked.length)
  have hta := targetUniqueNodes_le_available config
    ((ranked.map fun item => item.chunk.source_node_id).dedup).length
    (min resolved ranked.length)
  obtain ⟨e, he1, he2, he3⟩ := seedGo_shape (targetUniqueNodes config
    ((ranked.map fun item => item.chunk.source_node_id).dedup).length
    (min resolved ranked.length)) (min resolved ranked.length) ranked.enum [] []
  rw [List.nil_append] at he1 he2
  have hnd0 := seedGo_nodup (targetUniqueNodes config
    ((ranked.map fun item => item.chunk.source_node_id).dedup).length
    (min resolved ranked.length)) (min resolved ranked.length) ranked.enum [] []
    List.nodup_nil
  have hreach := seedGo_reach (targetUniqueNodes config
    ((ranked.map fun item => item.chunk.source_node_id).dedup).length
    (min resolved ranked.length)) (min resolved ranked.length) htk ranked.enum [] [] rfl
  have htarget_le : targetUniqueNodes config
      ((ranked.map fun item => item.chunk.source_node_id).dedup).length
      (min resolved ranked.length) ≤
      (seedGo (targetUniqueNodes config
        ((ranked.map fun item => item.chunk.source_node_id).dedup).length
        (min resolved ranked.length)) (min resolved ranked.length) ranked.enum [] []).2.length := by
    rcases hreach with hr | hr
    · exact hr
    · refine le_trans hta ?_
      apply nodup_length_le_of_subset (List.nodup_dedup _)
      intro x hx
      rw [List.mem_dedup, List.mem_map] at hx
      obtain ⟨item, hitem, hxeq⟩ := hx
      have hitem' : item ∈ ranked.enum.map Prod.snd := by
        rw [List.enum_map_snd]
        exact hitem
      rw [List.mem_map] at hitem'
      obtain ⟨it, hit, hsnd⟩ := hitem'
      have := hr it hit
      rw [hsnd, hxeq] at this
      exact this
  refine le_trans htarget_le ?_
  apply nodup_length_le_of_subset hnd0
  intro x hx
  rw [List.mem_dedup]
  rw [he2] at hx
  rw [List.mem_map] at hx
  obtain ⟨it, hit, hxeq⟩ := hx
  have hit_sel : it ∈ (seedGo (targetUniqueNodes config
      ((ranked.map fun item => item.chunk.source_node_id).dedup).length
      (min resolved ranked.length)) (min resolved ranked.length) ranked.enum [] []).1 := by
    rw [he1]
    exact hit
  obtain ⟨e', he'⟩ := fillGo_shape (min resolved ranked.length) ranked.enum
    (seedGo (targetUniqueNodes config
      ((ranked.map fun item => item.chunk.source_node_id).dedup).length
      (min resolved ranked.length)) (min resolved ranked.length) ranked.enum [] []).1
  have hit_fill : it ∈ fillGo (min resolved ranked.length) ranked.enum
      (seedGo (targetUniqueNodes config
        ((ranked.map fun item => item.chunk.source_node_id).dedup).length
        (min resolved ranked.length)) (min resolved ranked.length) ranked.enum [] []).1 := by
    rw [he']
    exact List.mem_append_left _ hit_sel
  have hit_sort : it ∈ List.insertionSort tagRankRel (fillGo (min resolved ranked.length)
      ranked.enum (seedGo (targetUniqueNodes config
        ((ranked.map fun item => item.chunk.source_node_id).dedup).length
        (min resolved ranked.length)) (min resolved ranked.length) ranked.enum [] []).1) :=
    (List.mem_insertionSort tagRankRel).mpr hit_fill
  rw [List.map_map, List.mem_map]
  exact ⟨it, hit_sort, hxeq⟩

theorem sorted_chunks_perm (l : List RetrievedChunk) : (sorted_chunks l).Perm l :=
  List.perm_insertionSort _ _

theorem sorted_chunks_length (l : List RetrievedChunk) : (sorted_chunks l).length = l.length :=
  List.length_insertionSort _ _

theorem select_length (scored : List RetrievedChunk) (config : RagConfig) (resolved : ℕ)
    (hne : scored ≠ []) :
    (select_with_node_diversity scored config resolved).length = min resolved scored.length := by
  unfold select_with_node_diversity
  rw [if_neg (by simpa [List.isEmpty_iff] using hne), selectFromRanked_length,
    sorted_chunks_length]

theorem select_coverage (scored : List RetrievedChunk) (config : RagConfig) (resolved : ℕ)
    (hne : scored ≠ []) :
    targetUniqueNodes config ((scored.map fun item => item.chunk.source_node_id).dedup).length
        (min resolved scored.length) ≤
      (((select_with_node_diversity scored config resolved).map fun item =>
        item.chunk.source_node_id).dedup).length := by
  unfold select_with_node_diversity
  rw [if_neg (by simpa [List.isEmpty_iff] using hne)]
  have hperm : ((sorted_chunks scored).map fun item => item.chunk.source_node_id).Perm
      (scored.map fun item => item.chunk.source_node_id) :=
    (sorted_chunks_perm scored).map _
  have hU : (((sorted_chunks scored).map fun item =>
      item.chunk.source_node_id).dedup).length =
      ((scored.map fun item => item.chunk.source_node_id).dedup).length :=
    hperm.dedup.length_eq
  have h := selectFromRanked_coverage (sorted_chunks scored) config resolved
  rw [hU, sorted_chunks_length] at h
  exact h

theorem score_candidates_map_node (query : String) (chunks : List RetrievedChunk)
    (client : Option RerankClient) (mock : Bool) :
    (score_candidates query chunks client mock).map (fun item => item.chunk.source_node_id) =
      chunks.map fun item => item.chunk.source_node_id := by
  have h := congrArg (List.map Chunk.source_node_id)
    (score_candidates_map_chunk query chunks client mock)
  simpa [List.map_map, Function.comp_def] using h

theorem rerank_chunks_length_coverage (query : String) (pool : List RetrievedChunk)
    (config : RagConfig) (client : Option RerankClient) (mock : Bool) (top_k : Option ℤ)
    (hne : pool ≠ []) :
    (rerank_chunks query pool config client mock top_k).length =
      min (resolvedTopK config top_k) pool.length ∧
    targetUniqueNodes config ((pool.map fun item => item.chunk.source_node_id).dedup).length
        (min (resolvedTopK config top_k) pool.length) ≤
      (((rerank_chunks query pool config client mock top_k).map fun item =>
        item.chunk.source_node_id).dedup).length := by
  unfold rerank_chunks
  rw [if_neg (by simpa [List.isEmpty_iff] using hne)]
  have hlen := score_candidates_length query pool client mock
  have hscored_ne : score_candidates query pool client mock ≠ [] := by
    intro h
    rw [h] at hlen
    exact hne (List.length_eq_zero.mp hlen.symm)
  constructor
  · rw [select_length _ _ _ hscored_ne, hlen]
  · have h := select_coverage (score_candidates query pool client mock) config
      (resolvedTopK config top_k) hscored_ne
    rw [score_candidates_map_node, hlen] at h
    exact h

/-- C1: with diversity enabled, `rerank_chunks` returns exactly
`k = min(resolved top_k, candidate count)` items, and the selection covers
at least `min(U, k, ⌈k/2⌉)` distinct `source_node_id` values when no
override is configured (`rerank_min_unique_nodes ≤ 0`), respectively
`min(U, k, override)` when an override `> 0` is configured, where `U` is the
number of distinct `source_node_id` values in the pool. -/
theorem c1_rerank_diversity_coverage (query : String) (pool : List RetrievedChunk)
    (config : RagConfig) (client : Option RerankClient) (mock : Bool) (top_k : Option ℤ)
    (hne : pool ≠ []) (hdiv : config.rerank_diversify = true) :
    (rerank_chunks query pool config client mock top_k).length =
      min (resolvedTopK config top_k) pool.length ∧
    (config.rerank_min_unique_nodes ≤ 0 →
      min ((pool.map fun item => item.chunk.source_node_id).dedup).length
          (min (min (resolvedTopK config top_k) pool.length)
            ((min (resolvedTopK config top_k) pool.length + 1) / 2)) ≤
        (((rerank_chunks query pool config client mock top_k).map fun item =>
          item.chunk.source_node_id).dedup).length) ∧
    (0 < config.rerank_min_unique_nodes →
      min ((pool.map fun item => item.chunk.source_node_id).dedup).length
          (min (min (resolvedTopK config top_k) pool.length)
            config.rerank_min_unique_nodes.toNat) ≤
        (((rerank_chunks query pool config client mock top_k).map fun item =>
          item.chunk.source_node_id).dedup).length) := by
  obtain ⟨h1, h2⟩ := rerank_chunks_length_coverage query pool config client mock top_k hne
  refine ⟨h1, fun hover => ?_, fun hover => ?_⟩
  · have ht : targetUniqueNodes config
        ((pool.map fun item => item.chunk.source_node_id).dedup).length
        (min (resolvedTopK config top_k) pool.length) =
        min ((pool.map fun item => item.chunk.source_node_id).dedup).length
          (min (min (resolvedTopK config top_k) pool.length)
            ((min (resolvedTopK config top_k) pool.length + 1) / 2)) := by
      unfold targetUniqueNodes
      rw [if_pos hdiv, if_neg (by omega)]
    rw [ht] at h2
    exact h2
  · have ht : targetUniqueNodes config
        ((pool.map fun item => item.chunk.source_node_id).dedup).length
        (min (resolvedTopK config top_k) pool.length) =
        min ((pool.map fun item => item.chunk.source_node_id).dedup).length
          (min (min (resolvedTopK config top_k) pool.length)
            config.rerank_min_unique_nodes.toNat) := by
      unfold targetUniqueNodes
      rw [if_pos hdiv, if_pos hover]
    rw [ht] at h2
    exact h2

def rcW (cid nid : String) (s : ℚ) : RetrievedChunk :=
  { chunk := { chunk_id := cid, text := cid, source_node_id := nid,
               heading_path := nid, embedding := [] }
    score := s
    retrieval_detail := [("fused_score", s)] }

def c1pool : List RetrievedChunk :=
  [rcW "a" "n1" 5, rcW "b" "n1" 4, rcW "c" "n2" 3]

def cfgW : RagConfig :=
  { openai_api_key := "", openai_base_url := "", llm_model := "", embed_model := "",
    rerank_model := "", timeout_seconds := 30, top_k := 2, dense_weight := 7 / 10,
    bm25_weight := 3 / 10, rerank_diversify := true, rerank_min_unique_nodes := 0 }

/-- Witness for C1 at a concrete three-candidate pool over two nodes. -/
theorem c1_rerank_diversity_coverage_witness :
    c1pool ≠ [] ∧ cfgW.rerank_diversify = true ∧
    ((rerank_chunks "q" c1pool cfgW none true none).length =
        min (resolvedTopK cfgW none) c1pool.length ∧
      (cfgW.rerank_min_unique_nodes ≤ 0 →
        min ((c1pool.map fun item => item.chunk.source_node_id).dedup).length
            (min (min (resolvedTopK cfgW none) c1pool.length)
              ((min (resolvedTopK cfgW none) c1pool.length + 1) / 2)) ≤
          (((rerank_chunks "q" c1pool cfgW none true none).map fun item =>
            item.chunk.source_node_id).dedup).length) ∧
      (0 < cfgW.rerank_min_unique_nodes →
        min ((c1pool.map fun item => item.chunk.source_node_id).dedup).length
            (min (min (resolvedTopK cfgW none) c1pool.length)
              cfgW.rerank_min_unique_nodes.toNat) ≤
          (((rerank_chunks "q" c1pool cfgW none true none).map fun item =>
            item.chunk.source_node_id).dedup).length)) :=
  ⟨by decide, rfl,
   c1_rerank_diversity_coverage "q" c1pool cfgW none true none (by decide) rfl⟩

/-- C3: when the external rerank call raises or returns a score list of the
wrong length, `_score_candidates` returns the candidates untouched (no
score overwrite, no `rerank_score` key), the pipeline does not raise, and
`rerank_chunks` still returns exactly `min(resolved top_k, candidate
count)` items meeting the diversity coverage target. -/
theorem c3_rerank_failure_degrades (query : String) (pool : List RetrievedChunk)
    (config : RagConfig) (rerank : RerankClient) (top_k : Option ℤ)
    (hne : pool ≠ [])
    (hfail : rerank query (pool.map fun item => item.chunk.text) = .error () ∨
      ∃ scores, rerank query (pool.map fun item => item.chunk.text) = .ok scores ∧
        scores.length ≠ pool.length) :
    score_candidates query pool (some rerank) false = pool ∧
    (rerank_chunks query pool config (some rerank) false top_k).length =
      min (resolvedTopK config top_k) pool.length ∧
    targetUniqueNodes config ((pool.map fun item => item.chunk.source_node_id).dedup).length
        (min (resolvedTopK config top_k) pool.length) ≤
      (((rerank_chunks query pool config (some rerank) false top_k).map fun item =>
        item.chunk.source_node_id).dedup).length := by
  obtain ⟨h1, h2⟩ := rerank_chunks_length_coverage query pool config (some rerank) false
    top_k hne
  exact ⟨score_candidates_failed query pool rerank hfail, h1, h2⟩

def c3client : RerankClient := fun _ _ => .error ()

/-- Witness for C3 with a backend that always raises. -/
theorem c3_rerank_failure_degrades_witness :
    c1pool ≠ [] ∧
    (score_candidates "q" c1pool (some c3client) false = c1pool ∧
      (rerank_chunks "q" c1pool cfgW (some c3client) false none).length =
        min (resolvedTopK cfgW none) c1pool.length ∧
      targetUniqueNodes cfgW ((c1pool.map fun item =>
          item.chunk.source_node_id).dedup).length
          (min (resolvedTopK cfgW none) c1pool.length) ≤
        (((rerank_chunks "q" c1pool cfgW (some c3client) false none).map fun item =>
          item.chunk.source_node_id).dedup).length) :=
  ⟨by decide,
   c3_rerank_failure_degrades "q" c1pool cfgW c3client none (by decide) (Or.inl rfl)⟩

theorem charListLeb_refl : ∀ xs : List Char, charListLeb xs xs = true
  | [] => rfl
  | c :: cs => by simp [charListLeb, lt_irrefl, charListLeb_refl cs]

theorem rankRel_refl (a : RetrievedChunk) : rankRel a a := by
  unfold rankRel rankLeb
  simp [lt_irrefl, charListLeb_refl]

theorem fillGo_of_le (k : ℕ) (l sel : List (ℕ × RetrievedChunk)) (h : k ≤ sel.length) :
    fillGo k l sel = sel := by
  cases l with
  | nil => rfl
  | cons item rest => simp only [fillGo, if_pos h]

theorem seedGo_one (target : ℕ) (x : ℕ × RetrievedChunk) (t : List (ℕ × RetrievedChunk)) :
    seedGo target 1 (x :: t) [] [] = ([x], [x.2.chunk.source_node_id]) := by
  simp [seedGo]

theorem selectFromRanked_one (r : RetrievedChunk) (rest : List RetrievedChunk)
    (config : RagConfig) : selectFromRanked (r :: rest) config 1 = [r] := by
  have henum : (r :: rest).enum = (0, r) :: rest.enumFrom 1 := rfl
  have hk : min 1 (r :: rest).length = 1 :=
    Nat.min_eq_left (Nat.succ_le_succ (Nat.zero_le _))
  simp only [selectFromRanked, henum, hk]
  split
  · rw [seedGo_one]
    rw [fillGo_of_le 1 _ _ (by simp)]
    rfl
  · rw [show fillGo 1 ((0, r) :: rest.enumFrom 1) [] = fillGo 1 (rest.enumFrom 1) [(0, r)]
      from by simp [fillGo]]
    rw [fillGo_of_le 1 _ _ (by simp)]
    rfl

/-- C7: with `top_k = 1` and no backend rescoring, `rerank_chunks` returns
exactly one item — the pool's highest-ranked candidate under the
(score desc, fused_score desc, chunk_id asc) order — for every
configuration, so diversity settings never change a single-slot result. -/
theorem c7_single_slot_rerank (query : String) (pool : List RetrievedChunk)
    (config : RagConfig) (mock : Bool) (hne : pool ≠ []) :
    ∃ best, rerank_chunks query pool config none mock (some 1) = [best] ∧
      best ∈ pool ∧ ∀ item ∈ pool, rankRel best item := by
  have hres : resolvedTopK config (some 1) = 1 := rfl
  have hemp : pool.isEmpty = false := by
    cases pool with
    | nil => exact absurd rfl hne
    | cons a l => rfl
  cases hs : sorted_chunks pool with
  | nil =>
    have hlen := sorted_chunks_length pool
    rw [hs] at hlen
    cases pool with
    | nil => exact absurd rfl hne
    | cons a l => simp at hlen
  | cons b l =>
    refine ⟨b, ?_, ?_, ?_⟩
    · simp only [rerank_chunks]
      rw [if_neg (by simp [hemp])]
      rw [score_candidates_none query pool mock, hres]
      simp only [select_with_node_diversity]
      rw [if_neg (by simp [hemp]), hs]
      exact selectFromRanked_one b l config
    · have hb : b ∈ sorted_chunks pool := by
        rw [hs]; exact List.mem_cons_self b l
      exact (sorted_chunks_perm pool).mem_iff.mp hb
    · intro item hitem
      have hitem' : item ∈ sorted_chunks pool :=
        (sorted_chunks_perm pool).mem_iff.mpr hitem
      rw [hs] at hitem'
      rcases List.mem_cons.mp hitem' with h | h
      · subst h; exact rankRel_refl item
      · have hsorted : List.Sorted rankRel (sorted_chunks pool) :=
          List.sorted_insertionSort rankRel pool
        rw [hs] at hsorted
        exact (List.sorted_cons.mp hsorted).1 item h

/-- Witness for C7 at a concrete three-candidate pool. -/
theorem c7_single_slot_rerank_witness :
    c1pool ≠ [] ∧
    ∃ best, rerank_chunks "q" c1pool cfgW none true (some 1) = [best] ∧
      best ∈ c1pool ∧ ∀ item ∈ c1pool, rankRel best item :=
  ⟨by decide, c7_single_slot_rerank "q" c1pool cfgW true (by decide)⟩

theorem eq_of_perm_of_sorted_on {α : Type} {r : α → α → Prop} :
    ∀ {l₁ l₂ : List α}, l₁.Perm l₂ → l₁.Sorted r → l₂.Sorted r →
      (∀ a ∈ l₁, ∀ b ∈ l₁, r a b → r b a → a = b) → l₁ = l₂
  | [], _, p, _, _, _ => p.nil_eq
  | a :: t, [], p, _, _, _ => absurd p.symm.nil_eq (by simp)
  | a :: t, b :: u, p, s₁, s₂, anti => by
    have hab : a = b := by
      by_cases h : a = b
      · exact h
      · have hbmem : b ∈ a :: t := p.mem_iff.mpr (List.mem_cons_self b u)
        have hamem : a ∈ b :: u := p.mem_iff.mp (List.mem_cons_self a t)
        have hb_t : b ∈ t := by
          rcases List.mem_cons.mp hbmem with h' | h'
          · exact absurd h'.symm h
          · exact h'
        have ha_u : a ∈ u := by
          rcases List.mem_cons.mp hamem with h' | h'
          · exact absurd h' h
          · exact h'
        have rab : r a b := (List.sorted_cons.mp s₁).1 b hb_t
        have rba : r b a := (List.sorted_cons.mp s₂).1 a ha_u
        exact anti a (List.mem_cons_self a t) b hbmem rab rba
    subst hab
    have htu : t = u :=
      eq_of_perm_of_sorted_on p.cons_inv (List.sorted_cons.mp s₁).2
        (List.sorted_cons.mp s₂).2
        (fun x hx y hy => anti x (List.mem_cons_of_mem a hx) y (List.mem_cons_of_mem a hy))
    rw [htu]

theorem sorted_chunks_eq_of_perm (pool₁ pool₂ : List RetrievedChunk)
    (hperm : pool₁.Perm pool₂)
    (hnd : (pool₁.map fun item => item.chunk.chunk_id).Nodup) :
    sorted_chunks pool₁ = sorted_chunks pool₂ := by
  have hinj := List.inj_on_of_nodup_map hnd
  refine eq_of_perm_of_sorted_on
    ((sorted_chunks_perm pool₁).trans (hperm.trans (sorted_chunks_perm pool₂).symm))
    (List.sorted_insertionSort rankRel pool₁)
    (List.sorted_insertionSort rankRel pool₂) ?_
  intro a ha b hb rab rba
  have ha' : a ∈ pool₁ := (sorted_chunks_perm pool₁).mem_iff.mp ha
  have hb' : b ∈ pool₁ := (sorted_chunks_perm pool₁).mem_iff.mp hb
  exact hinj ha' hb' (rankLeb_antisymm_key rab rba).2.2

/-- C5 (amended): with no rerank backend, `rerank_chunks` is
order-independent for every pool whose candidates carry pairwise distinct
chunk ids — the (score desc, fused_score desc, chunk_id asc) tie-break is a
total order on such pools, so every permutation of the input yields the same
output list.  (Duplicate chunk ids can make equal sort keys, where Python's
stable sort preserves input order; see the counterexample.) -/
theorem c5_rerank_order_independent (query : String) (pool₁ pool₂ : List RetrievedChunk)
    (config : RagConfig) (mock : Bool) (top_k : Option ℤ)
    (hperm : pool₁.Perm pool₂)
    (hnd : (pool₁.map fun item => item.chunk.chunk_id).Nodup) :
    rerank_chunks query pool₁ config none mock top_k =
      rerank_chunks query pool₂ config none mock top_k := by
  have hsorted_eq := sorted_chunks_eq_of_perm pool₁ pool₂ hperm hnd
  cases h₁ : pool₁ with
  | nil =>
    subst h₁
    have h₂ : pool₂ = [] := hperm.nil_eq.symm
    subst h₂
    rfl
  | cons a t =>
    subst h₁
    have hne₂ : pool₂ ≠ [] := by
      intro h
      subst h
      exact absurd hperm.symm.nil_eq (by simp)
    have hemp₂ : pool₂.isEmpty = false := by
      cases pool₂ with
      | nil => exact absurd rfl hne₂
      | cons _ _ => rfl
    simp only [rerank_chunks]
    rw [if_neg (by simp), if_neg (by simp [hemp₂])]
    rw [score_candidates_none, score_candidates_none]
    simp only [select_with_node_diversity]
    rw [if_neg (by simp), if_neg (by simp [hemp₂]), hsorted_eq]

/-- C5 counterexample: two candidates with identical score, fused score and
chunk_id but different source nodes.  Python's stable sort keeps them in
input order, so the two input orders give different single-slot outputs:
the claimed order-independence fails when chunk ids repeat. -/
theorem c5_counterexample :
    ([rcW "c" "n1" 1, rcW "c" "n2" 1]).Perm [rcW "c" "n2" 1, rcW "c" "n1" 1] ∧
    rerank_chunks "q" [rcW "c" "n1" 1, rcW "c" "n2" 1] cfgW none true (some 1) ≠
      rerank_chunks "q" [rcW "c" "n2" 1, rcW "c" "n1" 1] cfgW none true (some 1) :=
  ⟨List.Perm.swap _ _ _, by decide⟩

/-- Witness for C5 at a concrete pool with distinct chunk ids. -/
theorem c5_rerank_order_independent_witness :
    ([rcW "a" "n1" 5, rcW "b" "n2" 4]).Perm [rcW "b" "n2" 4, rcW "a" "n1" 5] ∧
    (([rcW "a" "n1" 5, rcW "b" "n2" 4].map fun item => item.chunk.chunk_id).Nodup) ∧
    rerank_chunks "q" [rcW "a" "n1" 5, rcW "b" "n2" 4] cfgW none true none =
      rerank_chunks "q" [rcW "b" "n2" 4, rcW "a" "n1" 5] cfgW none true none :=
  ⟨List.Perm.swap _ _ _, by decide,
   c5_rerank_order_independent "q" _ _ cfgW true none (List.Perm.swap _ _ _) (by decide)⟩
